import Mathlib

/-!
# Verification of the chronosweep audit engine

A shallow embedding of the `internal/audit` replay-and-diagnose engine of the
chronosweep repository, together with proofs of the behavioural claims made by
its specification.  Go string primitives are re-implemented on `List Char`
(`String.data`) so that all definitions are executable and amenable to proof;
Go maps that are only ever read are modelled as association lists with a
defaulting lookup, and Go maps that are iterated are modelled as association
lists in insertion order (the theorems show the results are independent of
that order wherever the specification claims determinism).
-/

namespace Chronosweep

/-! ## Go string primitives (strings package), re-implemented on `List Char` -/

/-- Characters considered whitespace (Go `unicode.IsSpace` on the ASCII range). -/
def isWS (c : Char) : Bool := c.isWhitespace

/-- Drop matching characters from the end of a character list. -/
def dropWhileEnd (p : Char → Bool) (l : List Char) : List Char :=
  (l.reverse.dropWhile p).reverse

/-- Go `strings.TrimSpace`. -/
def goTrimSpace (s : String) : String :=
  String.mk (dropWhileEnd isWS (s.data.dropWhile isWS))

/-- Go `strings.Trim(s, cutset)`: strip characters of `cutset` from both ends. -/
def goTrim (s cutset : String) : String :=
  String.mk (dropWhileEnd (fun c => cutset.data.contains c)
    (s.data.dropWhile (fun c => cutset.data.contains c)))

/-- Go `strings.ToLower` (ASCII-faithful). -/
def goToLower (s : String) : String := String.mk (s.data.map Char.toLower)

/-- Go `strings.EqualFold` (ASCII-faithful: compare after lower-casing). -/
def goEqualFold (a b : String) : Bool := goToLower a == goToLower b

/-- Whether the character list `p` occurs at the start of `l`. -/
def startsWithL : List Char → List Char → Bool
  | _, [] => true
  | [], _ :: _ => false
  | c :: cs, p :: ps => c == p && startsWithL cs ps

/-- Go `strings.HasPrefix`. -/
def goStartsWith (s pre : String) : Bool := startsWithL s.data pre.data

/-- Whether the character list `p` occurs inside `l`. -/
def containsL : List Char → List Char → Bool
  | [], p => p.isEmpty
  | c :: cs, p => startsWithL (c :: cs) p || containsL cs p

/-- Go `strings.Contains`. -/
def goContains (s sub : String) : Bool := containsL s.data sub.data

/-- Go `strings.HasSuffix`. -/
def goEndsWith (s suf : String) : Bool := startsWithL s.data.reverse suf.data.reverse

/-- Go `strings.TrimSuffix`: remove one occurrence of `suf` at the end, if present. -/
def goTrimTrailing (s suf : String) : String :=
  if goEndsWith s suf then String.mk (s.data.take (s.data.length - suf.data.length)) else s

/-- Go `strings.TrimPrefix`: remove one occurrence of `pre` at the start, if present. -/
def goTrimLeading (s pre : String) : String :=
  if goStartsWith s pre then String.mk (s.data.drop pre.data.length) else s

/-- Drop the first `n` characters (Go byte slicing `s[n:]`; all uses are after an
ASCII prefix check, where bytes and characters coincide). -/
def goDrop (s : String) (n : Nat) : String := String.mk (s.data.drop n)

/-- Helper for `goFields`: accumulate the current field (reversed) while scanning. -/
def fieldsAux : List Char → List Char → List String
  | [], acc => if acc.isEmpty then [] else [String.mk acc.reverse]
  | c :: cs, acc =>
    if isWS c then
      if acc.isEmpty then fieldsAux cs [] else String.mk acc.reverse :: fieldsAux cs []
    else fieldsAux cs (c :: acc)

/-- Go `strings.Fields`: split around runs of whitespace. -/
def goFields (s : String) : List String := fieldsAux s.data []

/-- Go `strings.Join(l, sep)`. -/
def goJoin : List String → String → String
  | [], _ => ""
  | [x], _ => x
  | x :: y :: xs, sep => x ++ sep ++ goJoin (y :: xs) sep

/-- The separator replacement of `splitCandidates`
(Go `strings.NewReplacer(",", " ", ";", " ", "|", " ")`). -/
def goMapSep (s : String) : String :=
  String.mk (s.data.map (fun c => if c == ',' || c == ';' || c == '|' then ' ' else c))

/-- Go string comparison, `a <= b`: lexicographic on the code points (Go
compares the UTF-8 bytes, whose order agrees with code-point order). -/
def lexLe : List Char → List Char → Bool
  | [], _ => true
  | _ :: _, [] => false
  | a :: as, b :: bs =>
    if a.toNat < b.toNat then true
    else if b.toNat < a.toNat then false
    else lexLe as bs

/-- Go `a <= b` on strings. -/
def goStrLe (a b : String) : Bool := lexLe a.data b.data

/-! ## Sorting: `sort.Strings` and `sort.Slice`

Go `sort.Slice` produces an arrangement in which no later element is `less`
than an earlier one.  We model it by an insertion sort over the reflexive
closure `le` of the comparator; every call site in the audit engine sorts by a
key that is unique within the slice, for which that arrangement is unique, so
the model is exact. -/

/-- Insertion sort by the boolean relation `le`. -/
def sortLe (le : α → α → Bool) (l : List α) : List α :=
  List.insertionSort (fun a b => le a b = true) l

/-- Go `sort.Strings`. -/
def goSortStrings (l : List String) : List String :=
  sortLe goStrLe l

/-! ## Association lists standing in for Go maps -/

/-- Read of a Go `map[string]string` (zero value `""` when absent). -/
def mapGetD (m : List (String × String)) (k : String) : String :=
  match m with
  | [] => ""
  | (k₂, v) :: rest => if k = k₂ then v else mapGetD rest k

/-- Lookup in a Go `map[string]string` with its `ok` flag. -/
def lookupFirst (m : List (String × String)) (k : String) : Option String :=
  match m with
  | [] => none
  | (k₂, v) :: rest => if k = k₂ then some v else lookupFirst rest k

/-- Overwriting insertion, Go `m[k] = v`. -/
def mapInsert (m : List (String × String)) (k v : String) : List (String × String) :=
  match m with
  | [] => [(k, v)]
  | (k₂, w) :: rest => if k = k₂ then (k₂, v) :: rest else (k₂, w) :: mapInsert rest k v

/-- Go `m[k] = append(m[k], v)` on a `map[K][]V`, modelled in insertion order. -/
def insertAppend [DecidableEq κ] (m : List (κ × List β)) (k : κ) (v : β) :
    List (κ × List β) :=
  match m with
  | [] => [(k, [v])]
  | (k₂, vs) :: rest =>
    if k = k₂ then (k₂, vs ++ [v]) :: rest else (k₂, vs) :: insertAppend rest k v

/-- Read of a Go `map[K][]V` (zero value `[]` when absent). -/
def lookupD [DecidableEq κ] (m : List (κ × List β)) (k : κ) : List β :=
  match m with
  | [] => []
  | (k₂, vs) :: rest => if k = k₂ then vs else lookupD rest k

/-! ## Data model (internal/gmail and internal/gmailctl) -/

/-- `gmail.MessageID`. -/
abbrev MessageID := String

/-- `gmail.LabelID`. -/
abbrev LabelID := String

/-- `gmail.MessageMeta`: the per-message header snapshot.  `Headers` is a Go
`map[string]string`, modelled as an association list read through `mapGetD`;
`Date` (a `time.Time`) is modelled as a plain timestamp, it is never read by
the audit engine. -/
structure MessageMeta where
  ID : MessageID
  LabelIDs : List LabelID
  Headers : List (String × String)
  Date : Nat
deriving DecidableEq, Repr

/-- `gmailctl.FilterCriteria`. -/
structure FilterCriteria where
  From : String
  To : String
  Subject : String
  Query : String
  List : String
deriving DecidableEq, Repr

/-- `gmailctl.FilterAction` (the `Forward` field is never read by the engine). -/
structure FilterAction where
  AddLabelIDs : List String
  RemoveLabelIDs : List String
  Forward : String
deriving DecidableEq, Repr

/-- `gmailctl.Filter`. -/
structure Filter where
  ID : String
  Name : String
  Criteria : FilterCriteria
  Action : FilterAction
deriving DecidableEq, Repr

/-- `gmailctl.Label` (`Ty` is the source field `Type`, renamed because `Type`
is a Lean keyword; it is never read by the engine). -/
structure GLabel where
  ID : String
  Name : String
  Ty : String
deriving DecidableEq, Repr

/-- `gmailctl.Export`. -/
structure Export where
  Filters : List Filter
  Labels : List GLabel
deriving DecidableEq, Repr

/-! ## internal/audit/rules.go: matchers and the rule compiler -/

/-- `matcherKind` (the four constants `matcherFrom` … `matcherList`). -/
inductive MatcherKind where
  | matcherFrom
  | matcherTo
  | matcherSubject
  | matcherList
deriving DecidableEq, Repr

/-- `matcher`. -/
structure Matcher where
  kind : MatcherKind
  values : List String
deriving DecidableEq, Repr

/-- `ruleActions`. -/
structure RuleActions where
  Archive : Bool
  MarkRead : Bool
  Star : Bool
  Labels : List String
deriving DecidableEq, Repr

/-- `compiledRule`. -/
structure CompiledRule where
  Name : String
  Matchers : List Matcher
  Actions : RuleActions
  Labels : List String
  Evaluable : Bool
deriving DecidableEq, Repr

/-- `normalizeListID`: strip angle brackets, quotes and whitespace, lower-case.
The regular expression `^[<\s]*(.*?)[>\s]*$` always matches and its group
strips the maximal leading run of `<`/whitespace and the maximal trailing run
of `>`/whitespace. -/
def normalizeListID (raw : String) : String :=
  let r := goTrimSpace raw
  if r = "" then ""
  else
    let core := String.mk (dropWhileEnd (fun c => c == '>' || isWS c)
      (r.data.dropWhile (fun c => c == '<' || isWS c)))
    let r := goTrimSpace core
    let r := goTrimTrailing r ">"
    let r := goTrimLeading r "<"
    let r := goTrim r "\x22 "
    goToLower r

/-- `containsAny`: lower-case the header, test substring containment of each
candidate, first hit wins. -/
def containsAny (header : String) (values : List String) : Bool :=
  let header := goToLower header
  values.any (fun val => goContains header val)

/-- `matchListID`. -/
def matchListID (raw : String) (values : List String) : Bool :=
  let listID := normalizeListID raw
  values.any (fun val => listID == val || goContains listID val)

/-- `matcher.matches` (the Go `default: return false` arm is unreachable for
the closed four-constant kind). -/
def matcherMatches (m : Matcher) (meta : MessageMeta) : Bool :=
  match m.kind with
  | .matcherFrom => containsAny (mapGetD meta.Headers "From") m.values
  | .matcherTo => containsAny (mapGetD meta.Headers "To") m.values
  | .matcherSubject => containsAny (mapGetD meta.Headers "Subject") m.values
  | .matcherList => matchListID (mapGetD meta.Headers "List-Id") m.values

/-- `compiledRule.matches`: conjunction over all matchers. -/
def ruleMatches (r : CompiledRule) (meta : MessageMeta) : Bool :=
  r.Matchers.all (fun m => matcherMatches m meta)

/-- `splitCandidates`: replace `,;|` by spaces, split on whitespace, strip
quote and bracket wrapping, lower-case, drop empty tokens and `OR`. -/
def splitCandidates (raw : String) : List String :=
  let raw := goMapSep raw
  let raw := goTrimSpace raw
  if raw = "" then []
  else
    (goFields raw).foldl (fun out part =>
      let part := goToLower (goTrim part "\x22\x27()")
      if part = "" || goEqualFold part "OR" then out else out ++ [part]) []

/-- `queryToken`. -/
structure QueryToken where
  value : String
  skip : Bool
  invalid : Bool
deriving DecidableEq, Repr

/-- `normalizeQueryToken`. -/
def normalizeQueryToken (raw : String) : QueryToken :=
  let trimmed := goTrim raw "()\x22\x27"
  if trimmed = "" || goEqualFold trimmed "OR" then { value := "", skip := true, invalid := false }
  else if goStartsWith trimmed "-" then { value := "", skip := false, invalid := true }
  else { value := trimmed, skip := false, invalid := false }

/-- `matcherFromToken`: map a recognized `list:`/`from:`/`subject:`/`to:`
token to a matcher; `none` models the Go `(matcher{}, false)` failure. -/
def matcherFromToken (token : String) : Option Matcher :=
  let lower := goToLower token
  if goStartsWith lower "list:" then
    let val := normalizeListID (goDrop token 5)
    if val = "" then none else some { kind := .matcherList, values := [val] }
  else if goStartsWith lower "from:" then
    let vals := splitCandidates (goDrop token 5)
    if vals.isEmpty then none else some { kind := .matcherFrom, values := vals }
  else if goStartsWith lower "subject:" then
    let vals := splitCandidates (goDrop token 8)
    if vals.isEmpty then none else some { kind := .matcherSubject, values := vals }
  else if goStartsWith lower "to:" then
    let vals := splitCandidates (goDrop token 3)
    if vals.isEmpty then none else some { kind := .matcherTo, values := vals }
  else none

/-- The token loop of `parseQueryMatchers`, with the accumulated matcher list
made explicit; `none` models the early `return nil, false`. -/
def parseQueryTokens : List String → List Matcher → Option (List Matcher)
  | [], acc => some acc
  | raw :: rest, acc =>
    let tok := normalizeQueryToken raw
    if tok.skip then parseQueryTokens rest acc
    else if tok.invalid then none
    else
      match matcherFromToken tok.value with
      | none => none
      | some m => parseQueryTokens rest (acc ++ [m])

/-- `parseQueryMatchers` (`none` models the boolean `false` result). -/
def parseQueryMatchers (query : String) : Option (List Matcher) :=
  match parseQueryTokens (goFields query) [] with
  | none => none
  | some ms => if ms.isEmpty then none else some ms

/-- `buildMatchers`. -/
def buildMatchers (c : FilterCriteria) : List Matcher × Bool :=
  let matchers : List Matcher := []
  let matchers := if goTrimSpace c.From ≠ "" then
    matchers ++ [{ kind := .matcherFrom, values := splitCandidates c.From }] else matchers
  let matchers := if goTrimSpace c.To ≠ "" then
    matchers ++ [{ kind := .matcherTo, values := splitCandidates c.To }] else matchers
  let matchers := if goTrimSpace c.Subject ≠ "" then
    matchers ++ [{ kind := .matcherSubject, values := splitCandidates c.Subject }] else matchers
  let matchers := if goTrimSpace c.List ≠ "" then
    matchers ++ [{ kind := .matcherList, values := [normalizeListID c.List] }] else matchers
  if goTrimSpace c.Query ≠ "" then
    match parseQueryMatchers c.Query with
    | none => ([], false)
    | some qm =>
      let matchers := matchers ++ qm
      if matchers.isEmpty then ([], false) else (matchers, true)
  else if matchers.isEmpty then ([], false)
  else (matchers, true)

/-- `appendIfMissing`. -/
def appendIfMissing (slice : List String) (val : String) : List String :=
  if slice.contains val then slice else slice ++ [val]

/-- `mapActions`. -/
def mapActions (action : FilterAction) (labelNames : List (String × String)) : RuleActions :=
  let result : RuleActions := { Archive := false, MarkRead := false, Star := false, Labels := [] }
  let result := if action.RemoveLabelIDs.length > 0 then
    action.RemoveLabelIDs.foldl (fun r id =>
      let r := if id = "INBOX" then { r with Archive := true } else r
      if id = "UNREAD" then { r with MarkRead := true } else r) result
  else result
  let result := if action.AddLabelIDs.length > 0 then
    action.AddLabelIDs.foldl (fun r id =>
      if id = "STARRED" then { r with Star := true }
      else
        match lookupFirst labelNames id with
        | some name => if name ≠ "" then { r with Labels := appendIfMissing r.Labels name } else r
        | none => r) result
  else result
  { result with Labels := goSortStrings result.Labels }

/-- `describeCriteria`. -/
def describeCriteria (c : FilterCriteria) : String :=
  if c.From ≠ "" then "from:" ++ goTrimSpace c.From
  else if c.List ≠ "" then "list:" ++ goTrimSpace c.List
  else if c.Subject ≠ "" then "subject:" ++ goTrimSpace c.Subject
  else if c.Query ≠ "" then goTrimSpace c.Query
  else "gmailctl-rule"

/-- `compileRules`.  The two label-name maps are merged exactly as in the
source: live labels first, export labels overwriting on id collision. -/
def compileRules (ex : Export) (labelsByID : List (LabelID × String)) : List CompiledRule :=
  let labelNames := labelsByID.foldl (fun m p => mapInsert m p.1 p.2) []
  let labelNames := ex.Labels.foldl (fun m lbl =>
    if lbl.ID ≠ "" ∧ lbl.Name ≠ "" then mapInsert m lbl.ID lbl.Name else m) labelNames
  ex.Filters.map (fun filt =>
    let mb := buildMatchers filt.Criteria
    let actions := mapActions filt.Action labelNames
    let ruleName := goTrimSpace filt.Name
    let ruleName := if ruleName = "" then goTrimSpace filt.ID else ruleName
    let ruleName := if ruleName = "" then describeCriteria filt.Criteria else ruleName
    { Name := ruleName, Matchers := mb.1, Actions := actions,
      Labels := actions.Labels, Evaluable := mb.2 })

/-- `evaluateRules`: replay every evaluable rule against every message,
recording matched ids under the rule name (a Go `map[string][]MessageID`,
modelled in insertion order; it is only ever read back through `lookupD`). -/
def evaluateRules (rules : List CompiledRule) (metas : List MessageMeta) :
    List (String × List MessageID) :=
  rules.foldl (fun m rule =>
    if !rule.Evaluable then m
    else metas.foldl (fun m meta =>
      if ruleMatches rule meta then insertAppend m rule.Name meta.ID else m) m) []

/-! ## internal/audit: findings types, conflict detection, findings engine -/

/-- `audit.RuleFinding`. -/
structure RuleFinding where
  Name : String
  Reason : String
deriving DecidableEq, Repr

/-- `audit.Conflict`. -/
structure Conflict where
  Rules : List String
  Description : String
deriving DecidableEq, Repr

/-- `audit.GmailctlFindings`. -/
structure GmailctlFindings where
  DeadRules : List RuleFinding
  MissingLabels : List String
  Conflicts : List Conflict
deriving DecidableEq, Repr

instance : Inhabited GmailctlFindings :=
  ⟨{ DeadRules := [], MissingLabels := [], Conflicts := [] }⟩

/-- `ruleSummary`. -/
structure RuleSummary where
  Name : String
  Actions : RuleActions
deriving DecidableEq, Repr

/-- `collectRuleSummaries`: invert the replay map to a per-message list of the
summaries of the rules that matched it (a Go `map[MessageID][]ruleSummary`,
modelled in insertion order; the conflict theorems show the final findings do
not depend on that order). -/
def collectRuleSummaries (rules : List CompiledRule)
    (replay : List (String × List MessageID)) : List (MessageID × List RuleSummary) :=
  rules.foldl (fun byMessage rule =>
    let ids := lookupD replay rule.Name
    if ids.isEmpty then byMessage
    else ids.foldl (fun byMessage id =>
      insertAppend byMessage id { Name := rule.Name, Actions := rule.Actions }) byMessage) []

/-- `classifySummaries`: the matched rules with `Archive` set and those with
`Star` set, each deduplicated by name. -/
def classifySummaries (summaries : List RuleSummary) : List String × List String :=
  summaries.foldl (fun acc summary =>
    let acc := if summary.Actions.Archive then (appendIfMissing acc.1 summary.Name, acc.2) else acc
    if summary.Actions.Star then (acc.1, appendIfMissing acc.2 summary.Name) else acc) ([], [])

/-- `mergeRuleSets`: union of the two name lists, deduplicated and sorted. -/
def mergeRuleSets (a b : List String) : List String :=
  goSortStrings (b.foldl appendIfMissing a)

/-- The joined rule-name key of a conflict. -/
def conflictKey (c : Conflict) : String := goJoin c.Rules "|"

/-- One step of the conflict loop of `detectConflicts`: the accumulator is the
`seen` key set (a Go `map[string]struct\x7b\x7d`, modelled as the list of
inserted keys) together with the conflicts collected so far. -/
def conflictStep (acc : List String × List Conflict) (e : MessageID × List RuleSummary) :
    List String × List Conflict :=
  let parts := classifySummaries e.2
  if parts.1.isEmpty || parts.2.isEmpty then acc
  else
    let combined := mergeRuleSets parts.1 parts.2
    let key := goJoin combined "|"
    if acc.1.contains key then acc
    else (key :: acc.1, acc.2 ++ [{ Rules := combined, Description := "archive and star rules overlap" }])

/-- `detectConflicts`. -/
def detectConflicts (rules : List CompiledRule)
    (replay : List (String × List MessageID)) : List Conflict :=
  let byMessage := collectRuleSummaries rules replay
  let conflicts := (byMessage.foldl conflictStep ([], [])).2
  sortLe (fun a b => goStrLe (conflictKey a) (conflictKey b)) conflicts

/-- The inner label loop of the findings pass: any resolved label name that is
not in the live catalog is recorded once. -/
def missingStep (existingLabels : List String) (f : GmailctlFindings)
    (lbl : String) : GmailctlFindings :=
  if existingLabels.contains lbl then f
  else { f with MissingLabels := appendIfMissing f.MissingLabels lbl }

/-- One iteration of the findings loop of `analyseGmailctl` for one compiled
rule: emit a dead-rule finding for an evaluable rule with an empty match
list, then scan its labels. -/
def findingsStep (replay : List (String × List MessageID))
    (existingLabels : List String) (f : GmailctlFindings)
    (rule : CompiledRule) : GmailctlFindings :=
  let f := if (lookupD replay rule.Name).isEmpty && rule.Evaluable then
    { f with DeadRules := f.DeadRules ++
        [{ Name := rule.Name, Reason := "no messages matched in lookback" }] }
  else f
  rule.Labels.foldl (missingStep existingLabels) f

/-- The dead-rule / missing-label loop of `analyseGmailctl` together with the
final conflict computation, with the replay map and label catalog as inputs.
`existingLabels` is the set of live label names (the keys of the
`labelsByName` map returned by `ListLabels`). -/
def computeFindings (compiled : List CompiledRule)
    (replay : List (String × List MessageID))
    (existingLabels : List String) : GmailctlFindings :=
  let findings := compiled.foldl (findingsStep replay existingLabels)
    (default : GmailctlFindings)
  { findings with Conflicts := detectConflicts compiled replay }

/-- `Service.analyseGmailctl`.  The loader is modelled by its outcome:
`none` when no loader is configured, `some r` for a configured loader whose
`ExportFilters` call returns `r`. -/
def analyseGmailctl (loader : Option (Except String Export))
    (metas : List MessageMeta) (labelsByID : List (LabelID × String))
    (existingLabels : List String) : Except String GmailctlFindings :=
  match loader with
  | none => .ok default
  | some (.error e) => .error ("load gmailctl filters: " ++ e)
  | some (.ok ex) =>
    let compiled := compileRules ex labelsByID
    if compiled.isEmpty then .ok default
    else .ok (computeFindings compiled (evaluateRules compiled metas) existingLabels)

/-! ## internal/audit: rankings, report assembly, lint -/

/-- `audit.SenderStat`. -/
structure SenderStat where
  Domain : String
  Count : Nat
  PreviewSubject : String
deriving DecidableEq, Repr

/-- `audit.ListStat`. -/
structure ListStat where
  ListID : String
  Count : Nat
  PreviewSubject : String
deriving DecidableEq, Repr

/-- The comparator of `rankSenders` (reflexive closure of the Go `less`:
count descending, domain ascending on ties). -/
def senderLe (a b : SenderStat) : Bool :=
  if a.Count = b.Count then goStrLe a.Domain b.Domain else decide (b.Count < a.Count)

/-- The comparator of `rankLists`. -/
def listLe (a b : ListStat) : Bool :=
  if a.Count = b.Count then goStrLe a.ListID b.ListID else decide (b.Count < a.Count)

/-- `rankSenders`: the accumulator map is passed as its value list in an
arbitrary order (Go map iteration); `topN` is the Go `int` argument. -/
def rankSenders (m : List SenderStat) (topN : Int) : List SenderStat :=
  let slice := sortLe senderLe m
  if topN < (slice.length : Int) then slice.take topN.toNat else slice

/-- `rankLists`. -/
def rankLists (m : List ListStat) (topN : Int) : List ListStat :=
  let slice := sortLe listLe m
  if topN < (slice.length : Int) then slice.take topN.toNat else slice

/-- `extractDomain`. -/
def extractDomain (address : String) : String :=
  let address := goToLower (goTrimSpace address)
  if address = "" then ""
  else
    let data := address.data
    if data.contains '@' then
      let domain := String.mk ((data.reverse.takeWhile (fun c => c ≠ '@')).reverse)
      goTrim domain ". "
    else ""

/-- `domainOf`, modelled by its parse-failure fallback path `extractDomain`
(the audit claims do not depend on RFC address-list parsing, which is
performed by the external `net/mail` package). -/
def domainOf (from_ : String) : String :=
  let from_ := goTrimSpace from_
  if from_ = "" then "" else extractDomain from_

/-- Lookup in a generic association list (Go map read with `ok` flag). -/
def lookupA (m : List (String × α)) (k : String) : Option α :=
  match m with
  | [] => none
  | (k₂, v) :: rest => if k = k₂ then some v else lookupA rest k

/-- Replace the first binding of `k` (Go in-place update through a pointer). -/
def updateA (m : List (String × α)) (k : String) (v : α) : List (String × α) :=
  match m with
  | [] => []
  | (k₂, w) :: rest => if k = k₂ then (k₂, v) :: rest else (k₂, w) :: updateA rest k v

/-- The sender-accumulation step of `buildRankings` for one message, on the
accumulator association list (Go `map[string]*SenderStat` keyed by domain,
modelled in insertion order: `st.Count++` and the first-seen preview become an
in-place update). -/
def accumSender (senders : List (String × SenderStat)) (meta : MessageMeta) :
    List (String × SenderStat) :=
  let domain := domainOf (mapGetD meta.Headers "From")
  if domain = "" then senders
  else
    match lookupA senders domain with
    | none => senders ++ [(domain,
        { Domain := domain, Count := 1, PreviewSubject := mapGetD meta.Headers "Subject" })]
    | some st => updateA senders domain
        { st with
          Count := st.Count + 1
          PreviewSubject := if st.PreviewSubject = "" then mapGetD meta.Headers "Subject"
            else st.PreviewSubject }

/-- The list-accumulation step of `buildRankings` for one message. -/
def accumList (lists : List (String × ListStat)) (meta : MessageMeta) :
    List (String × ListStat) :=
  let lid := normalizeListID (mapGetD meta.Headers "List-Id")
  if lid = "" then lists
  else
    match lookupA lists lid with
    | none => lists ++ [(lid,
        { ListID := lid, Count := 1, PreviewSubject := mapGetD meta.Headers "Subject" })]
    | some ls => updateA lists lid
        { ls with
          Count := ls.Count + 1
          PreviewSubject := if ls.PreviewSubject = "" then mapGetD meta.Headers "Subject"
            else ls.PreviewSubject }

/-- `buildRankings`. -/
def buildRankings (metas : List MessageMeta) (topN : Int) :
    List SenderStat × List ListStat :=
  let senders := metas.foldl accumSender []
  let lists := metas.foldl accumList []
  (rankSenders (senders.map Prod.snd) topN, rankLists (lists.map Prod.snd) topN)

/-- Increment of a Go `map[string]int` entry (zero value 0 when absent). -/
def incrCount (m : List (String × Nat)) (k : String) : List (String × Nat) :=
  match lookupA m k with
  | none => m ++ [(k, 1)]
  | some n => updateA m k (n + 1)

/-- `buildCoverage`: histogram of live label names over the sampled messages. -/
def buildCoverage (metas : List MessageMeta) (labelsByID : List (LabelID × String)) :
    List (String × Nat) :=
  metas.foldl (fun coverage meta =>
    meta.LabelIDs.foldl (fun coverage lid =>
      match lookupA labelsByID lid with
      | some name => incrCount coverage name
      | none => coverage) coverage) []

/-- One archive-rule snippet for a list (`buildArchiveRules`). -/
def listSnippet (lid : String) : String :=
  "\x7b\n  filter: \x7b list: \x22" ++ lid ++ "\x22 \x7d,\n  actions: \x7b archive: true, markRead: true \x7d,\n\x7d"

/-- One archive-rule snippet for a sender domain (`buildArchiveRules`). -/
def senderSnippet (domain : String) : String :=
  "\x7b\n  filter: \x7b from: \x22*@" ++ domain ++ "\x22 \x7d,\n  actions: \x7b archive: true, markRead: true \x7d,\n\x7d"

/-- `buildArchiveRules`: list snippets first, then sender snippets, capped at
ten in total. -/
def buildArchiveRules (lists : List ListStat) (senders : List SenderStat) : List String :=
  let maxRules := 10
  let snippets := lists.foldl (fun acc ls =>
    if acc.length ≥ maxRules then acc else acc ++ [listSnippet ls.ListID]) []
  if snippets.length ≥ maxRules then snippets
  else senders.foldl (fun acc sd =>
    if acc.length ≥ maxRules then acc else acc ++ [senderSnippet sd.Domain]) snippets

/-- `audit.Suggestions`. -/
structure Suggestions where
  ArchiveRules : List String
  RemoveRules : List RuleFinding
  Smells : List Conflict
deriving DecidableEq, Repr

instance : Inhabited Suggestions := ⟨{ ArchiveRules := [], RemoveRules := [], Smells := [] }⟩

/-- `audit.Report`.  `GeneratedAt` (a `time.Time`) is modelled as a timestamp
and `Window` (a `time.Duration`) as its integer nanosecond count. -/
structure Report where
  GeneratedAt : Nat
  Window : Int
  Total : Nat
  TopSenders : List SenderStat
  TopLists : List ListStat
  Coverage : List (String × Nat)
  Suggestions : Suggestions
  Findings : GmailctlFindings
deriving DecidableEq, Repr

/-- `audit.Options` (`Headers` only parameterizes the external metadata fetch). -/
structure Options where
  Window : Int
  TopN : Int
  PageSize : Int
  Headers : List String
deriving DecidableEq, Repr

/-- `Service.Run`, with the external collaborators abstracted by their
outcomes: `labelsByName` and `labelsByID` are the successfully fetched label
catalog, `metas` the successfully fetched message sample, `loader` the
configured rule-export loader and its result (see `analyseGmailctl`), and
`now` the clock reading.  Fetch failures abort before any of the modelled
logic runs and are therefore outside the model. -/
def ServiceRun (opts : Options) (labelsByName : List String)
    (labelsByID : List (LabelID × String)) (metas : List MessageMeta)
    (loader : Option (Except String Export)) (now : Nat) : Except String Report :=
  if opts.Window ≤ 0 then .error "window must be positive"
  else
    let topN := if opts.TopN ≤ 0 then 20 else opts.TopN
    let existingLabels := labelsByName
    let rep : Report :=
      { GeneratedAt := now, Window := opts.Window, Total := metas.length,
        TopSenders := [], TopLists := [], Coverage := [],
        Suggestions := default, Findings := default }
    if metas.length = 0 then .ok rep
    else
      let ranked := buildRankings metas topN
      let archiveRules := buildArchiveRules ranked.2 ranked.1
      let coverage := buildCoverage metas labelsByID
      match analyseGmailctl loader metas labelsByID existingLabels with
      | .error e => .error e
      | .ok findings =>
        .ok { rep with
          TopSenders := ranked.1
          TopLists := ranked.2
          Coverage := coverage
          Suggestions := { ArchiveRules := archiveRules
                           RemoveRules := findings.DeadRules
                           Smells := findings.Conflicts }
          Findings := findings }

/-! ## Lint report (`LintReport`, `ShouldFail`) -/

/-- `audit.LintReport`. -/
structure LintReport where
  Window : Int
  Total : Nat
  Findings : GmailctlFindings
deriving DecidableEq, Repr

/-- The `flags` map literal of `ShouldFail` (read with zero value `false`). -/
def lintFlags (lr : LintReport) (cond : String) : Bool :=
  if cond = "dead" then lr.Findings.DeadRules.length > 0
  else if cond = "missing-label" then lr.Findings.MissingLabels.length > 0
  else if cond = "conflict" then lr.Findings.Conflicts.length > 0
  else false

/-- `LintReport.ShouldFail`: the loop with early `return true` is the
disjunction over the requested tokens. -/
def ShouldFail (lr : LintReport) (failOn : List String) : Bool :=
  failOn.any (fun cond =>
    let cond := goTrimSpace (goToLower cond)
    if cond = "" then false else lintFlags lr cond)

/-! ## Proof-side specifications and concrete instances

Closed forms, predicates and concrete data used by the theorems below; these
are not part of the embedded program, only of its verification. -/

/-- Concrete criteria used by the C5 witness: a non-blank `From` (`OR`) and a
non-blank `To` (bracket wrapping) that both normalize to zero candidates, a
whitespace-only `Subject`, no free-text query, and a `List` criterion. -/
def critC5W : FilterCriteria :=
  FilterCriteria.mk "OR" "()" "   " "" "x"

/-- Concrete one-filter export used by the C6 witness. -/
def filtC6W : Filter :=
  { ID := "f1", Name := "  Keep ",
    Criteria := { From := "", To := "", Subject := "", Query := "", List := "" },
    Action := { AddLabelIDs := [], RemoveLabelIDs := [], Forward := "" } }

/-- The compiled form of `filtC6W`. -/
def ruleC6W : CompiledRule :=
  { Name := "Keep", Matchers := [],
    Actions := { Archive := false, MarkRead := false, Star := false, Labels := [] },
    Labels := [], Evaluable := false }

/-- The `MissingLabels` projection of `missingStep`. -/
def mlStep (existingLabels : List String) (ml : List String) (lbl : String) : List String :=
  if existingLabels.contains lbl then ml else appendIfMissing ml lbl

/-- The `MissingLabels` contribution of one rule. -/
def mlOfRule (existingLabels : List String) (ml : List String) (r : CompiledRule) :
    List String :=
  r.Labels.foldl (mlStep existingLabels) ml

/-- The dead-rule findings emitted for a rule list against a replay map. -/
def deadList (replay : List (String × List MessageID)) (rules : List CompiledRule) :
    List RuleFinding :=
  (rules.filter (fun r => (lookupD replay r.Name).isEmpty && r.Evaluable)).map
    (fun r => { Name := r.Name, Reason := "no messages matched in lookback" })

/-- Concrete evaluable rule used by the C1 and C2 witnesses. -/
def ruleC12W : CompiledRule :=
  CompiledRule.mk "r" [Matcher.mk .matcherFrom ["x"]]
    (RuleActions.mk false false false ["ghost"]) ["ghost"] true

/-- The disqualifying-token predicate of C3: after stripping bracket/quote
wrapping the token is non-empty, is not (case-insensitively) `OR`, and either
begins with a negation dash or carries none of the recognized prefixes. -/
def badQueryToken (raw : String) : Prop :=
  goTrim raw "()\x22\x27" ≠ "" ∧
  goEqualFold (goTrim raw "()\x22\x27") "OR" = false ∧
  (goStartsWith (goTrim raw "()\x22\x27") "-" = true ∨
    (goStartsWith (goToLower (goTrim raw "()\x22\x27")) "list:" = false ∧
     goStartsWith (goToLower (goTrim raw "()\x22\x27")) "from:" = false ∧
     goStartsWith (goToLower (goTrim raw "()\x22\x27")) "to:" = false ∧
     goStartsWith (goToLower (goTrim raw "()\x22\x27")) "subject:" = false))

instance badQueryToken_decidable : DecidablePred badQueryToken := fun raw => by
  unfold badQueryToken
  infer_instance

/-- The strict count-descending, key-ascending order. -/
def rankLt {α : Type} (key : α → String) (cnt : α → Nat) (a b : α) : Prop :=
  cnt b < cnt a ∨ (cnt a = cnt b ∧ goStrLe (key a) (key b) = true ∧ key a ≠ key b)

/-- The ids of the messages matched by one rule, in sample order. -/
def matchedIds (r : CompiledRule) (metas : List MessageMeta) : List MessageID :=
  (metas.filter (fun meta => ruleMatches r meta)).map (fun meta => meta.ID)

/-- Closed form of `lookupD (evaluateRules rules metas) name`: concatenation,
over the evaluable rules carrying `name`, of their matched id lists. -/
def nameMatches (metas : List MessageMeta) (name : String)
    (rules : List CompiledRule) : List MessageID :=
  (rules.map (fun r =>
    if r.Evaluable = true ∧ name = r.Name then matchedIds r metas else [])).join

/-- Closed form of `lookupD (collectRuleSummaries rules replay) id`: one
summary per occurrence of `id` in each rule's match list, in rule order. -/
def byMessageSpec (replay : List (String × List MessageID)) (rules : List CompiledRule)
    (id : MessageID) : List RuleSummary :=
  (rules.map (fun r =>
    List.replicate ((lookupD replay r.Name).count id) (RuleSummary.mk r.Name r.Actions))).join

/-- An insertion-order association map is well-formed when its keys are
distinct and no value list is empty. -/
def WFmap {κ β : Type} [DecidableEq κ] (m : List (κ × List β)) : Prop :=
  (m.map Prod.fst).Nodup ∧ ∀ p ∈ m, p.2 ≠ []

/-- First-occurrence deduplication relative to an already-seen key set, the
specification of the `seen` map of `detectConflicts`. -/
def dedupFrom (seen : List String) : List String → List String
  | [] => []
  | k :: ks => if seen.contains k then dedupFrom seen ks else k :: dedupFrom (k :: seen) ks

/-- The conflict key contributed by one inverted-map entry, if any. -/
def entryKey (summaries : List RuleSummary) : Option String :=
  let parts := classifySummaries summaries
  if parts.1.isEmpty || parts.2.isEmpty then none
  else some (goJoin (mergeRuleSets parts.1 parts.2) "|")

/-- C4 counterexample data: a neutral rule matching both messages fixes the
entry order of the per-message map by sample order; two further rule groups
give the two messages distinct rule-name sets with the same joined key
(a rule name containing the separator bar). -/
def rulesC4 : List CompiledRule :=
  [CompiledRule.mk "c" [Matcher.mk .matcherFrom ["x"]]
      (RuleActions.mk false false false []) [] true,
   CompiledRule.mk "a" [Matcher.mk .matcherFrom ["x1"]]
      (RuleActions.mk true false false []) [] true,
   CompiledRule.mk "b" [Matcher.mk .matcherFrom ["x1"]]
      (RuleActions.mk false false true []) [] true,
   CompiledRule.mk "a|b" [Matcher.mk .matcherFrom ["x2"]]
      (RuleActions.mk true false true []) [] true]

/-- First sampled message of the C4 counterexample. -/
def metaC4a : MessageMeta := MessageMeta.mk "M1" [] [("From", "x1")] 0

/-- Second sampled message of the C4 counterexample. -/
def metaC4b : MessageMeta := MessageMeta.mk "M2" [] [("From", "x2")] 0

/-! ## Helper lemmas -/

theorem appendIfMissing_mem (slice : List String) (val a : String) :
    a ∈ appendIfMissing slice val ↔ a ∈ slice ∨ a = val := by
  by_cases h : val ∈ slice
  · simp only [appendIfMissing, List.elem_eq_mem, decide_eq_true_eq, if_pos h]
    constructor
    · exact fun ha => Or.inl ha
    · rintro (ha | rfl) <;> assumption
  · simp [appendIfMissing, List.elem_eq_mem, h]

theorem appendIfMissing_nodup {slice : List String} (val : String) (h : slice.Nodup) :
    (appendIfMissing slice val).Nodup := by
  by_cases hc : val ∈ slice
  · simpa [appendIfMissing, List.elem_eq_mem, hc] using h
  · simp only [appendIfMissing, List.elem_eq_mem, decide_eq_true_eq, if_neg hc]
    simpa [List.nodup_append] using ⟨h, hc⟩

theorem sortLe_perm (le : α → α → Bool) (l : List α) : (sortLe le l).Perm l :=
  List.perm_insertionSort _ l

theorem sortLe_mem (le : α → α → Bool) (l : List α) (a : α) :
    a ∈ sortLe le l ↔ a ∈ l :=
  (sortLe_perm le l).mem_iff

theorem char_eq_of_toNat {a b : Char} (h : a.toNat = b.toNat) : a = b :=
  Char.eq_of_val_eq (UInt32.ext h)

theorem lexLe_total : ∀ (x y : List Char), lexLe x y = true ∨ lexLe y x = true := by
  intro x
  induction x with
  | nil => intro y; exact Or.inl rfl
  | cons a as ih =>
    intro y
    cases y with
    | nil => exact Or.inr rfl
    | cons b bs =>
      rcases Nat.lt_trichotomy a.toNat b.toNat with h | h | h
      · left; simp [lexLe, h]
      · rcases ih bs with h2 | h2
        · left; simp [lexLe, h, Nat.lt_irrefl, h2]
        · right; simp [lexLe, h.symm, Nat.lt_irrefl, h2]
      · right; simp [lexLe, h]

theorem lexLe_trans : ∀ (x y z : List Char),
    lexLe x y = true → lexLe y z = true → lexLe x z = true := by
  intro x
  induction x with
  | nil => intro y z _ _; rfl
  | cons a as ih =>
    intro y z hxy hyz
    cases y with
    | nil => simp [lexLe] at hxy
    | cons b bs =>
      cases z with
      | nil => simp [lexLe] at hyz
      | cons c cs =>
        rcases Nat.lt_trichotomy a.toNat b.toNat with h1 | h1 | h1 <;>
          rcases Nat.lt_trichotomy b.toNat c.toNat with h2 | h2 | h2
        · simp [lexLe, show a.toNat < c.toNat by omega]
        · simp [lexLe, show a.toNat < c.toNat by omega]
        · simp [lexLe, show ¬b.toNat < c.toNat by omega, h2] at hyz
        · simp [lexLe, show a.toNat < c.toNat by omega]
        · have hx : lexLe as bs = true := by
            simpa [lexLe, h1, Nat.lt_irrefl] using hxy
          have hy : lexLe bs cs = true := by
            simpa [lexLe, h2, Nat.lt_irrefl] using hyz
          simp only [lexLe, show ¬a.toNat < c.toNat by omega,
            show ¬c.toNat < a.toNat by omega, if_false]
          exact ih bs cs hx hy
        · simp [lexLe, show ¬b.toNat < c.toNat by omega, h2] at hyz
        · simp [lexLe, show ¬a.toNat < b.toNat by omega, h1] at hxy
        · simp [lexLe, show ¬a.toNat < b.toNat by omega, h1] at hxy
        · simp [lexLe, show ¬a.toNat < b.toNat by omega, h1] at hxy

theorem lexLe_antisymm : ∀ (x y : List Char),
    lexLe x y = true → lexLe y x = true → x = y := by
  intro x
  induction x with
  | nil =>
    intro y h1 h2
    cases y with
    | nil => rfl
    | cons b bs => simp [lexLe] at h2
  | cons a as ih =>
    intro y h1 h2
    cases y with
    | nil => simp [lexLe] at h1
    | cons b bs =>
      rcases Nat.lt_trichotomy a.toNat b.toNat with h | h | h
      · simp [lexLe, show ¬b.toNat < a.toNat by omega, h] at h2
      · have hab : a = b := char_eq_of_toNat h
        subst hab
        have h1x : lexLe as bs = true := by simpa [lexLe, Nat.lt_irrefl] using h1
        have h2x : lexLe bs as = true := by simpa [lexLe, Nat.lt_irrefl] using h2
        rw [ih bs h1x h2x]
      · simp [lexLe, show ¬a.toNat < b.toNat by omega, h] at h1

theorem goStrLe_total (a b : String) : goStrLe a b = true ∨ goStrLe b a = true :=
  lexLe_total a.data b.data

theorem goStrLe_trans {a b c : String} (h1 : goStrLe a b = true)
    (h2 : goStrLe b c = true) : goStrLe a c = true :=
  lexLe_trans a.data b.data c.data h1 h2

theorem goStrLe_antisymm {a b : String} (h1 : goStrLe a b = true)
    (h2 : goStrLe b a = true) : a = b :=
  congrArg String.mk (lexLe_antisymm a.data b.data h1 h2)

theorem sortLe_pairwise (le : α → α → Bool)
    (htot : ∀ a b, le a b = true ∨ le b a = true)
    (htrans : ∀ a b c, le a b = true → le b c = true → le a c = true)
    (l : List α) : (sortLe le l).Pairwise (fun a b => le a b = true) := by
  haveI : IsTotal α (fun a b => le a b = true) := ⟨htot⟩
  haveI : IsTrans α (fun a b => le a b = true) := ⟨htrans⟩
  exact List.sorted_insertionSort _ l

/-! ## C9: lint failure policy -/

theorem lintFlags_spec (lr : LintReport) (cond : String) :
    lintFlags lr cond = true ↔
      (cond = "dead" ∧ lr.Findings.DeadRules ≠ []) ∨
      (cond = "missing-label" ∧ lr.Findings.MissingLabels ≠ []) ∨
      (cond = "conflict" ∧ lr.Findings.Conflicts ≠ []) := by
  unfold lintFlags
  by_cases h1 : cond = "dead"
  · subst h1
    simp [← List.length_pos]
  · by_cases h2 : cond = "missing-label"
    · subst h2
      simp [← List.length_pos]
    · by_cases h3 : cond = "conflict"
      · subst h3
        simp [← List.length_pos]
      · simp [h1, h2, h3]

/-- C9: `ShouldFail(tokens)` is true exactly when some requested token,
lower-cased and trimmed, names one of the recognized categories `dead`,
`missing-label`, `conflict` whose finding list is non-empty; empty and
unrecognized tokens are ignored. -/
theorem C9_should_fail_iff (lr : LintReport) (failOn : List String) :
    ShouldFail lr failOn = true ↔
      ∃ t ∈ failOn,
        (goTrimSpace (goToLower t) = "dead" ∧ lr.Findings.DeadRules ≠ []) ∨
        (goTrimSpace (goToLower t) = "missing-label" ∧ lr.Findings.MissingLabels ≠ []) ∨
        (goTrimSpace (goToLower t) = "conflict" ∧ lr.Findings.Conflicts ≠ []) := by
  unfold ShouldFail
  rw [List.any_eq_true]
  refine exists_congr fun t => and_congr_right fun _ => ?_
  by_cases h : goTrimSpace (goToLower t) = ""
  · rw [if_pos h, h]
    simp
  · rw [if_neg h, lintFlags_spec]

/-! ## C8: empty message sample -/

/-- C8: with a positive window and an empty fetched sample, `Run` returns a
zero-valued report (total 0, empty rankings, empty coverage, empty findings)
and no error, whatever the configured loader would have returned. -/
theorem C8_empty_sample_run (opts : Options) (labelsByName : List String)
    (labelsByID : List (LabelID × String)) (loader : Option (Except String Export))
    (now : Nat) (hw : 0 < opts.Window) :
    ServiceRun opts labelsByName labelsByID [] loader now =
      .ok { GeneratedAt := now, Window := opts.Window, Total := 0,
            TopSenders := [], TopLists := [], Coverage := [],
            Suggestions := { ArchiveRules := [], RemoveRules := [], Smells := [] },
            Findings := { DeadRules := [], MissingLabels := [], Conflicts := [] } } := by
  unfold ServiceRun
  rw [if_neg (not_le.mpr hw)]
  rfl

/-- Witness for C8 at a concrete input. -/
theorem C8_empty_sample_run_witness :
    ServiceRun { Window := 1, TopN := 0, PageSize := 0, Headers := [] } ["bulk"]
        [("Label_bulk", "bulk")] [] (some (.error "loader boom")) 42 =
      .ok { GeneratedAt := 42, Window := 1, Total := 0,
            TopSenders := [], TopLists := [], Coverage := [],
            Suggestions := { ArchiveRules := [], RemoveRules := [], Smells := [] },
            Findings := { DeadRules := [], MissingLabels := [], Conflicts := [] } } :=
  C8_empty_sample_run _ _ _ _ _ (by decide)

/-! ## C5: criteria that normalize to zero candidates -/

/-- C5 counterexample: a `From` criterion consisting only of the token `OR`
normalizes to zero candidate substrings, yet the compiled rule receives a
matcher (with an empty candidate list) and is evaluable — the claim that such
a criterion contributes no matcher is false on the code. -/
theorem C5_counterexample :
    splitCandidates "OR" = [] ∧
    buildMatchers { From := "OR", To := "", Subject := "", Query := "", List := "" } =
      ([{ kind := .matcherFrom, values := [] }], true) := by
  exact ⟨rfl, rfl⟩

/-- C5 amended: in any filter whose free-text `Query` criterion is blank (a
non-blank query can independently discard every matcher, see C3), a `From`,
`To` or `Subject` criterion that is non-blank but normalizes to zero candidate
substrings still contributes a matcher of the corresponding kind with an empty
candidate list — and the rule is then evaluable; such an empty-candidate
matcher matches no message; and only a criterion that is entirely whitespace
contributes no matcher of its kind. -/
theorem C5_amended_empty_candidates (c : FilterCriteria)
    (hq : goTrimSpace c.Query = "") :
    (goTrimSpace c.From ≠ "" → splitCandidates c.From = [] →
      Matcher.mk .matcherFrom [] ∈ (buildMatchers c).1 ∧ (buildMatchers c).2 = true) ∧
    (goTrimSpace c.To ≠ "" → splitCandidates c.To = [] →
      Matcher.mk .matcherTo [] ∈ (buildMatchers c).1 ∧ (buildMatchers c).2 = true) ∧
    (goTrimSpace c.Subject ≠ "" → splitCandidates c.Subject = [] →
      Matcher.mk .matcherSubject [] ∈ (buildMatchers c).1 ∧
        (buildMatchers c).2 = true) ∧
    (goTrimSpace c.From = "" → ∀ m ∈ (buildMatchers c).1, m.kind ≠ .matcherFrom) ∧
    (goTrimSpace c.To = "" → ∀ m ∈ (buildMatchers c).1, m.kind ≠ .matcherTo) ∧
    (goTrimSpace c.Subject = "" →
      ∀ m ∈ (buildMatchers c).1, m.kind ≠ .matcherSubject) ∧
    (∀ meta : MessageMeta,
      matcherMatches (Matcher.mk .matcherFrom []) meta = false ∧
      matcherMatches (Matcher.mk .matcherTo []) meta = false ∧
      matcherMatches (Matcher.mk .matcherSubject []) meta = false) := by
  have hnq : ¬(goTrimSpace c.Query ≠ "") := fun h => h hq
  unfold buildMatchers
  rw [if_neg hnq]
  refine ⟨fun h1 h2 => ?_, fun h1 h2 => ?_, fun h1 h2 => ?_,
    fun h1 => ?_, fun h1 => ?_, fun h1 => ?_, fun meta => ⟨rfl, rfl, rfl⟩⟩ <;>
    by_cases hF : goTrimSpace c.From = "" <;>
    by_cases hT : goTrimSpace c.To = "" <;>
    by_cases hS : goTrimSpace c.Subject = "" <;>
    by_cases hL : goTrimSpace c.List = "" <;>
    simp_all

/-- Witness for C5 at concrete criteria: `From = "OR"` and `To = "()"` both
contribute empty-candidate matchers and the rule is evaluable, while the
whitespace-only `Subject` contributes no matcher. -/
theorem C5_amended_empty_candidates_witness :
    (Matcher.mk .matcherFrom [] ∈ (buildMatchers critC5W).1 ∧
      (buildMatchers critC5W).2 = true) ∧
    (Matcher.mk .matcherTo [] ∈ (buildMatchers critC5W).1 ∧
      (buildMatchers critC5W).2 = true) ∧
    (∀ m ∈ (buildMatchers critC5W).1, m.kind ≠ .matcherSubject) := by
  have h := C5_amended_empty_candidates critC5W rfl
  exact ⟨h.1 (by decide) rfl, h.2.1 (by decide) rfl, h.2.2.2.2.2.1 rfl⟩

/-! ## C6: rule-name resolution -/

/-- For any zipped list with its image under a map, the second components are
the images of the first. -/
theorem zip_map_snd {α β : Type} (f : α → β) :
    ∀ (l : List α), ∀ p ∈ l.zip (l.map f), p.2 = f p.1 := by
  intro l
  induction l with
  | nil => intro p hp; simp at hp
  | cons a as ih =>
    intro p hp
    simp only [List.map_cons, List.zip_cons_cons, List.mem_cons] at hp
    rcases hp with rfl | hp
    · rfl
    · exact ih p hp

/-- The branch structure of `describeCriteria`: the synthesized description
comes from the first non-empty criterion among `From`, `List`, `Subject`,
`Query` in that order, and the generic placeholder appears exactly when all
four are empty.  The `To` criterion is never consulted. -/
theorem describeCriteria_cases (c : FilterCriteria) :
    (c.From ≠ "" → describeCriteria c = "from:" ++ goTrimSpace c.From) ∧
    (c.From = "" → c.List ≠ "" → describeCriteria c = "list:" ++ goTrimSpace c.List) ∧
    (c.From = "" → c.List = "" → c.Subject ≠ "" →
      describeCriteria c = "subject:" ++ goTrimSpace c.Subject) ∧
    (c.From = "" → c.List = "" → c.Subject = "" → c.Query ≠ "" →
      describeCriteria c = goTrimSpace c.Query) ∧
    (c.From = "" → c.List = "" → c.Subject = "" → c.Query = "" →
      describeCriteria c = "gmailctl-rule") := by
  unfold describeCriteria
  refine ⟨fun h1 => ?_, fun h1 h2 => ?_, fun h1 h2 h3 => ?_, fun h1 h2 h3 h4 => ?_,
    fun h1 h2 h3 h4 => ?_⟩ <;> simp_all

/-- C6 counterexample: a filter whose only non-empty criterion field is `To`
receives the generic placeholder name, not a synthesized description — the
claim that any single non-empty criterion field yields a synthesized
description is false on the code. -/
theorem C6_counterexample :
    (compileRules
      (Export.mk
        [Filter.mk "" ""
          (FilterCriteria.mk "" "team@example.com" "" "" "")
          (FilterAction.mk [] [] "")]
        [])
      []).map (fun r => r.Name) = ["gmailctl-rule"] := by
  rfl

/-- C6 amended: each compiled rule takes the trimmed explicit name when
non-blank, else the trimmed explicit id, else `describeCriteria`, which
synthesizes a description from the first non-empty criterion among `From`,
`List`, `Subject`, `Query` (in that order) and yields the placeholder
`gmailctl-rule` when all four are empty — in particular a filter whose only
non-empty criterion is `To` receives the placeholder. -/
theorem C6_amended_name_resolution (ex : Export) (lbls : List (LabelID × String)) :
    ∀ p ∈ ex.Filters.zip (compileRules ex lbls),
      (goTrimSpace p.1.Name ≠ "" → p.2.Name = goTrimSpace p.1.Name) ∧
      (goTrimSpace p.1.Name = "" → goTrimSpace p.1.ID ≠ "" →
        p.2.Name = goTrimSpace p.1.ID) ∧
      (goTrimSpace p.1.Name = "" → goTrimSpace p.1.ID = "" →
        p.2.Name = describeCriteria p.1.Criteria) ∧
      ((p.1.Criteria.From ≠ "" →
          describeCriteria p.1.Criteria = "from:" ++ goTrimSpace p.1.Criteria.From) ∧
        (p.1.Criteria.From = "" → p.1.Criteria.List ≠ "" →
          describeCriteria p.1.Criteria = "list:" ++ goTrimSpace p.1.Criteria.List) ∧
        (p.1.Criteria.From = "" → p.1.Criteria.List = "" → p.1.Criteria.Subject ≠ "" →
          describeCriteria p.1.Criteria = "subject:" ++ goTrimSpace p.1.Criteria.Subject) ∧
        (p.1.Criteria.From = "" → p.1.Criteria.List = "" → p.1.Criteria.Subject = "" →
          p.1.Criteria.Query ≠ "" →
          describeCriteria p.1.Criteria = goTrimSpace p.1.Criteria.Query) ∧
        (p.1.Criteria.From = "" → p.1.Criteria.List = "" → p.1.Criteria.Subject = "" →
          p.1.Criteria.Query = "" →
          describeCriteria p.1.Criteria = "gmailctl-rule")) := by
  unfold compileRules
  intro p hp
  have hmap := zip_map_snd _ _ p hp
  refine ⟨fun h1 => ?_, fun h1 h2b => ?_, fun h1 h2b => ?_, describeCriteria_cases _⟩
  · rw [hmap]; simp only [if_neg h1]
  · rw [hmap]; simp only [if_pos h1, if_neg h2b]
  · rw [hmap]; simp only [if_pos h1, if_pos h2b]

/-- Witness for C6 at a concrete one-filter export: the explicit name wins
after trimming. -/
theorem C6_amended_name_resolution_witness : ruleC6W.Name = goTrimSpace "  Keep " :=
  (C6_amended_name_resolution (Export.mk [filtC6W] []) [] (filtC6W, ruleC6W)
    (by decide)).1 (by decide)

/-! ## C1 and C2: dead rules and missing labels -/

theorem labelsFold_eq (existingLabels : List String) :
    ∀ (labels : List String) (f : GmailctlFindings),
      labels.foldl (missingStep existingLabels) f =
        { f with MissingLabels := labels.foldl (mlStep existingLabels) f.MissingLabels } := by
  intro labels
  induction labels with
  | nil => intro f; rfl
  | cons l ls ih =>
    intro f
    have hstep : missingStep existingLabels f l =
        { f with MissingLabels := mlStep existingLabels f.MissingLabels l } := by
      by_cases h : l ∈ existingLabels <;> simp [missingStep, mlStep, List.elem_eq_mem, h]
    simp only [List.foldl_cons, hstep, ih]

theorem findingsFold_eq (replay : List (String × List MessageID))
    (existingLabels : List String) :
    ∀ (rules : List CompiledRule) (f : GmailctlFindings),
      rules.foldl (findingsStep replay existingLabels) f =
        { f with
          DeadRules := f.DeadRules ++ deadList replay rules
          MissingLabels := rules.foldl (mlOfRule existingLabels) f.MissingLabels } := by
  intro rules
  induction rules with
  | nil => intro f; simp [deadList]
  | cons r rs ih =>
    intro f
    have hstep : findingsStep replay existingLabels f r =
        { f with
          DeadRules := f.DeadRules ++
            (if (lookupD replay r.Name).isEmpty && r.Evaluable then
              [{ Name := r.Name, Reason := "no messages matched in lookback" }] else [])
          MissingLabels := mlOfRule existingLabels f.MissingLabels r } := by
      unfold findingsStep
      by_cases h : (lookupD replay r.Name).isEmpty && r.Evaluable
      · rw [if_pos h, labelsFold_eq]
        simp [h, mlOfRule]
      · rw [if_neg h, labelsFold_eq]
        simp [h, mlOfRule]
    rw [List.foldl_cons, hstep, ih]
    have hdead : deadList replay (r :: rs) =
        (if (lookupD replay r.Name).isEmpty && r.Evaluable then
          [{ Name := r.Name, Reason := "no messages matched in lookback" }] else []) ++
          deadList replay rs := by
      unfold deadList
      by_cases h : (lookupD replay r.Name).isEmpty && r.Evaluable <;>
        simp [List.filter_cons, h]
    rw [hdead]
    simp [mlOfRule, List.append_assoc]

/-- C1: every dead-rule finding emitted by the findings engine names a rule of
the compiled list whose `Evaluable` flag is true, and the finding name has an
empty match list in the replay map — so a name with a non-empty match list is
never reported dead, and a name carried only by non-evaluable rules is never
reported dead. -/
theorem C1_dead_rules_sound (compiled : List CompiledRule)
    (replay : List (String × List MessageID)) (existingLabels : List String) :
    ∀ f ∈ (computeFindings compiled replay existingLabels).DeadRules,
      lookupD replay f.Name = [] ∧
      ∃ r ∈ compiled, r.Name = f.Name ∧ r.Evaluable = true := by
  intro f hf
  have hdr : (computeFindings compiled replay existingLabels).DeadRules =
      deadList replay compiled := by
    unfold computeFindings
    rw [findingsFold_eq]
    rfl
  rw [hdr] at hf
  unfold deadList at hf
  rcases List.mem_map.mp hf with ⟨r, hr, rfl⟩
  rcases List.mem_filter.mp hr with ⟨hrc, hcond⟩
  rcases (Bool.and_eq_true _ _).mp hcond with ⟨hempty, heval⟩
  refine ⟨?_, r, hrc, rfl, heval⟩
  simpa using List.isEmpty_iff.mp hempty

/-- Witness for C1: a single evaluable rule with an empty replay map is
reported dead and satisfies the soundness conditions. -/
theorem C1_dead_rules_sound_witness :
    lookupD ([] : List (String × List MessageID)) "r" = [] ∧
    ∃ r ∈ [ruleC12W], r.Name = "r" ∧ r.Evaluable = true :=
  C1_dead_rules_sound [ruleC12W] [] []
    (RuleFinding.mk "r" "no messages matched in lookback") (by decide)

theorem mlStep_mem (existingLabels ml : List String) (l a : String) :
    a ∈ mlStep existingLabels ml l ↔
      a ∈ ml ∨ (a = l ∧ l ∉ existingLabels) := by
  unfold mlStep
  by_cases h : l ∈ existingLabels
  · simp [List.elem_eq_mem, h]
  · simp [List.elem_eq_mem, h, appendIfMissing_mem]

theorem mlStep_nodup (existingLabels : List String) {ml : List String} (l : String)
    (h : ml.Nodup) : (mlStep existingLabels ml l).Nodup := by
  unfold mlStep
  by_cases hc : l ∈ existingLabels
  · simpa [List.elem_eq_mem, hc] using h
  · simpa [List.elem_eq_mem, hc] using appendIfMissing_nodup l h

theorem labelsMl_mem (existingLabels : List String) :
    ∀ (labels ml : List String) (a : String),
      a ∈ labels.foldl (mlStep existingLabels) ml ↔
        a ∈ ml ∨ (a ∈ labels ∧ a ∉ existingLabels) := by
  intro labels
  induction labels with
  | nil => intro ml a; simp
  | cons l ls ih =>
    intro ml a
    rw [List.foldl_cons, ih, mlStep_mem]
    constructor
    · rintro ((ha | ⟨rfl, hl⟩) | ⟨ha, hex⟩)
      · exact Or.inl ha
      · exact Or.inr ⟨List.mem_cons_self _ _, hl⟩
      · exact Or.inr ⟨List.mem_cons_of_mem _ ha, hex⟩
    · rintro (ha | ⟨ha, hex⟩)
      · exact Or.inl (Or.inl ha)
      · rcases List.mem_cons.mp ha with rfl | ha
        · exact Or.inl (Or.inr ⟨rfl, hex⟩)
        · exact Or.inr ⟨ha, hex⟩

theorem labelsMl_nodup (existingLabels : List String) :
    ∀ (labels : List String) {ml : List String}, ml.Nodup →
      (labels.foldl (mlStep existingLabels) ml).Nodup := by
  intro labels
  induction labels with
  | nil => intro ml h; exact h
  | cons l ls ih => intro ml h; exact ih (mlStep_nodup existingLabels l h)

theorem rulesMl_mem (existingLabels : List String) :
    ∀ (rules : List CompiledRule) (ml : List String) (a : String),
      a ∈ rules.foldl (mlOfRule existingLabels) ml ↔
        a ∈ ml ∨ ∃ r ∈ rules, a ∈ r.Labels ∧ a ∉ existingLabels := by
  intro rules
  induction rules with
  | nil => intro ml a; simp
  | cons r rs ih =>
    intro ml a
    rw [List.foldl_cons, ih]
    have hone : ∀ b, b ∈ mlOfRule existingLabels ml r ↔
        b ∈ ml ∨ (b ∈ r.Labels ∧ b ∉ existingLabels) := fun b =>
      labelsMl_mem existingLabels r.Labels ml b
    rw [hone]
    constructor
    · rintro ((ha | ⟨ha, hex⟩) | ⟨r₂, hr₂, ha, hex⟩)
      · exact Or.inl ha
      · exact Or.inr ⟨r, List.mem_cons_self _ _, ha, hex⟩
      · exact Or.inr ⟨r₂, List.mem_cons_of_mem _ hr₂, ha, hex⟩
    · rintro (ha | ⟨r₂, hr₂, ha, hex⟩)
      · exact Or.inl (Or.inl ha)
      · rcases List.mem_cons.mp hr₂ with rfl | hr₂
        · exact Or.inl (Or.inr ⟨ha, hex⟩)
        · exact Or.inr ⟨r₂, hr₂, ha, hex⟩

theorem rulesMl_nodup (existingLabels : List String) :
    ∀ (rules : List CompiledRule) {ml : List String}, ml.Nodup →
      (rules.foldl (mlOfRule existingLabels) ml).Nodup := by
  intro rules
  induction rules with
  | nil => intro ml h; exact h
  | cons r rs ih => intro ml h; exact ih (labelsMl_nodup existingLabels r.Labels h)

/-- C2: the `MissingLabels` finding list contains exactly the resolved rule
labels that are absent from the live label catalog — every such label appears,
every entry is absent from the catalog, and no entry appears twice, no matter
how many rules reference it. -/
theorem C2_missing_labels (compiled : List CompiledRule)
    (replay : List (String × List MessageID)) (existingLabels : List String) :
    (∀ r ∈ compiled, ∀ lbl ∈ r.Labels, lbl ∉ existingLabels →
      lbl ∈ (computeFindings compiled replay existingLabels).MissingLabels) ∧
    (∀ lbl ∈ (computeFindings compiled replay existingLabels).MissingLabels,
      lbl ∉ existingLabels) ∧
    (computeFindings compiled replay existingLabels).MissingLabels.Nodup := by
  have hml : (computeFindings compiled replay existingLabels).MissingLabels =
      compiled.foldl (mlOfRule existingLabels) [] := by
    unfold computeFindings
    rw [findingsFold_eq]
    rfl
  rw [hml]
  refine ⟨?_, ?_, ?_⟩
  · intro r hr lbl hlbl hex
    exact (rulesMl_mem existingLabels compiled [] lbl).mpr (Or.inr ⟨r, hr, hlbl, hex⟩)
  · intro lbl hlbl
    rcases (rulesMl_mem existingLabels compiled [] lbl).mp hlbl with h | ⟨_, _, _, hex⟩
    · simp at h
    · exact hex
  · exact rulesMl_nodup existingLabels compiled List.nodup_nil

/-- Witness for C2: one rule with a label missing from the catalog. -/
theorem C2_missing_labels_witness :
    "ghost" ∈ (computeFindings [ruleC12W] [] ["bulk"]).MissingLabels :=
  (C2_missing_labels [ruleC12W] [] ["bulk"]).1 ruleC12W (by decide) "ghost" (by decide)
    (by decide)

/-! ## C10: shape of the replay map -/

theorem foldl_preserve {γ σ : Type} (Inv : σ → Prop) (step : σ → γ → σ) :
    ∀ (l : List γ) (init : σ), Inv init →
      (∀ acc x, x ∈ l → Inv acc → Inv (step acc x)) → Inv (l.foldl step init) := by
  intro l
  induction l with
  | nil => intro init h _; exact h
  | cons x xs ih =>
    intro init h hstep
    exact ih _ (hstep init x (List.mem_cons_self _ _) h)
      (fun acc y hy => hstep acc y (List.mem_cons_of_mem _ hy))

theorem insertAppend_forall {κ β : Type} [DecidableEq κ] (P : κ → Prop)
    (k : κ) (v : β) (hk : P k) :
    ∀ (m : List (κ × List β)), (∀ p ∈ m, p.2 ≠ [] ∧ P p.1) →
      ∀ p ∈ insertAppend m k v, p.2 ≠ [] ∧ P p.1 := by
  intro m
  induction m with
  | nil =>
    intro _ p hp
    simp only [insertAppend, List.mem_singleton] at hp
    subst hp
    exact ⟨by simp, hk⟩
  | cons q rest ih =>
    intro hm p hp
    obtain ⟨k₂, vs⟩ := q
    simp only [insertAppend] at hp
    by_cases h : k = k₂
    · rw [if_pos h] at hp
      rcases List.mem_cons.mp hp with rfl | hp
      · refine ⟨by simp, ?_⟩
        subst h
        exact (hm (k, vs) (List.mem_cons_self _ _)).2
      · exact hm p (List.mem_cons_of_mem _ hp)
    · rw [if_neg h] at hp
      rcases List.mem_cons.mp hp with rfl | hp
      · exact hm (k₂, vs) (List.mem_cons_self _ _)
      · exact ih (fun q hq => hm q (List.mem_cons_of_mem _ hq)) p hp

/-- C10: every entry of the replay map has a non-empty match list, its key is
the name of some evaluable rule, and some sampled message was matched by an
evaluable rule of that name — so an evaluable rule that matches nothing never
appears as a key with an empty list, and every key attests at least one
matched message. -/
theorem C10_replay_map_shape (rules : List CompiledRule) (metas : List MessageMeta) :
    ∀ p ∈ evaluateRules rules metas,
      p.2 ≠ [] ∧ ∃ r ∈ rules, r.Name = p.1 ∧ r.Evaluable = true ∧
        ∃ meta ∈ metas, ruleMatches r meta = true := by
  classical
  unfold evaluateRules
  refine foldl_preserve
    (fun (m : List (String × List MessageID)) =>
      ∀ p ∈ m, p.2 ≠ [] ∧ ∃ r ∈ rules, r.Name = p.1 ∧ r.Evaluable = true ∧
        ∃ meta ∈ metas, ruleMatches r meta = true) _ rules [] (by simp) ?_
  intro acc rule hrule hacc
  by_cases heval : rule.Evaluable
  · simp only [heval, Bool.not_true, Bool.false_eq_true, if_false]
    refine foldl_preserve
      (fun (m : List (String × List MessageID)) =>
        ∀ p ∈ m, p.2 ≠ [] ∧ ∃ r ∈ rules, r.Name = p.1 ∧ r.Evaluable = true ∧
          ∃ meta ∈ metas, ruleMatches r meta = true) _ metas acc hacc ?_
    intro acc₂ meta hmeta hacc₂
    by_cases hmatch : ruleMatches rule meta
    · simp only [hmatch, if_true]
      exact insertAppend_forall
        (fun k => ∃ r ∈ rules, r.Name = k ∧ r.Evaluable = true ∧
          ∃ meta ∈ metas, ruleMatches r meta = true) rule.Name meta.ID
        ⟨rule, hrule, rfl, heval, meta, hmeta, hmatch⟩ acc₂ hacc₂
    · simpa [hmatch] using hacc₂
  · simpa [heval] using hacc

/-- Witness for C10 at a one-rule, one-message replay. -/
theorem C10_replay_map_shape_witness :
    (("r", ["m1"]) : String × List MessageID).2 ≠ [] ∧
    ∃ r ∈ [ruleC12W], r.Name = ("r", ["m1"]).1 ∧ r.Evaluable = true ∧
      ∃ meta ∈ [MessageMeta.mk "m1" [] [("From", "x@y")] 0],
        ruleMatches r meta = true :=
  C10_replay_map_shape [ruleC12W] [MessageMeta.mk "m1" [] [("From", "x@y")] 0]
    ("r", ["m1"]) (by decide)

/-! ## C3: disqualifying query tokens -/

theorem fieldsAux_ne_nil : ∀ (cs acc : List Char), fieldsAux cs acc ≠ [] →
    (∃ ch ∈ cs, ¬(isWS ch = true)) ∨ acc ≠ [] := by
  intro cs
  induction cs with
  | nil =>
    intro acc h
    right
    intro hacc
    subst hacc
    exact h rfl
  | cons c cs ih =>
    intro acc h
    by_cases hws : isWS c
    · simp only [fieldsAux, hws, if_true] at h
      by_cases hacc : acc.isEmpty
      · rw [if_pos hacc] at h
        rcases ih [] h with ⟨ch, hch, hch₂⟩ | hne
        · exact Or.inl ⟨ch, List.mem_cons_of_mem _ hch, hch₂⟩
        · exact absurd rfl hne
      · right
        intro hacc₂
        subst hacc₂
        exact hacc rfl
    · exact Or.inl ⟨c, List.mem_cons_self _ _, hws⟩

theorem dropWhile_head_false {p : Char → Bool} :
    ∀ (l : List Char) (x : Char) (xs : List Char),
      l.dropWhile p = x :: xs → p x = false := by
  intro l
  induction l with
  | nil => intro x xs h; simp at h
  | cons c cs ih =>
    intro x xs h
    rw [List.dropWhile_cons] at h
    by_cases hc : p c
    · rw [if_pos hc] at h
      exact ih x xs h
    · rw [if_neg hc] at h
      injection h with h1 h2
      subst h1
      simpa using hc

theorem goTrimSpace_ne_empty {s : String} (h : ∃ ch ∈ s.data, ¬(isWS ch = true)) :
    goTrimSpace s ≠ "" := by
  intro hcontra
  have hdata : dropWhileEnd isWS (s.data.dropWhile isWS) = [] :=
    congrArg String.data hcontra
  unfold dropWhileEnd at hdata
  have hrev : (s.data.dropWhile isWS).reverse.dropWhile isWS = [] := by
    have := congrArg List.reverse hdata
    simpa using this
  have hall : ∀ x ∈ (s.data.dropWhile isWS).reverse, isWS x :=
    List.dropWhile_eq_nil_iff.mp hrev
  rcases h with ⟨ch, hch, hnws⟩
  cases hdw : s.data.dropWhile isWS with
  | nil =>
    have hallws := List.dropWhile_eq_nil_iff.mp hdw
    exact hnws (hallws ch hch)
  | cons x xs =>
    have hx : isWS x = false := dropWhile_head_false _ _ _ hdw
    have hxmem : x ∈ (s.data.dropWhile isWS).reverse := by
      rw [hdw]; simp
    rw [hall x hxmem] at hx
    cases hx

theorem matcherFromToken_none_of_unrecognized (t : String)
    (h : goStartsWith (goToLower t) "list:" = false ∧
      goStartsWith (goToLower t) "from:" = false ∧
      goStartsWith (goToLower t) "to:" = false ∧
      goStartsWith (goToLower t) "subject:" = false) :
    matcherFromToken t = none := by
  obtain ⟨h1, h2, h3, h4⟩ := h
  unfold matcherFromToken
  simp only [h1, h2, h3, h4, Bool.false_eq_true, if_false]

theorem parseQueryTokens_none_of_bad :
    ∀ (tokens : List String) (acc : List Matcher),
      (∃ raw ∈ tokens, badQueryToken raw) → parseQueryTokens tokens acc = none := by
  intro tokens
  induction tokens with
  | nil => intro acc h; rcases h with ⟨_, h, _⟩; simp at h
  | cons raw rest ih =>
    intro acc h
    rcases h with ⟨raw₂, hmem, hbad⟩
    rcases List.mem_cons.mp hmem with rfl | hmem₂
    · obtain ⟨ht, hor, hdis⟩ := hbad
      have hskip : (normalizeQueryToken raw₂).skip = false := by
        unfold normalizeQueryToken
        rw [if_neg (by simp [ht, hor])]
        by_cases hdash : goStartsWith (goTrim raw₂ "()\x22\x27") "-" <;> simp [hdash]
      by_cases hdash : goStartsWith (goTrim raw₂ "()\x22\x27") "-"
      · have hinv : (normalizeQueryToken raw₂).invalid = true := by
          unfold normalizeQueryToken
          rw [if_neg (by simp [ht, hor]), if_pos hdash]
        unfold parseQueryTokens
        rw [if_neg (by simp [hskip]), if_pos hinv]
      · have hval : (normalizeQueryToken raw₂).invalid = false ∧
            (normalizeQueryToken raw₂).value = goTrim raw₂ "()\x22\x27" := by
          unfold normalizeQueryToken
          rw [if_neg (by simp [ht, hor]), if_neg (by simp [hdash])]
          exact ⟨rfl, rfl⟩
        have hun : matcherFromToken (normalizeQueryToken raw₂).value = none := by
          rw [hval.2]
          rcases hdis with hdash₂ | hfour
          · exact absurd hdash₂ (by simp [hdash])
          · exact matcherFromToken_none_of_unrecognized _ hfour
        unfold parseQueryTokens
        rw [if_neg (by simp [hskip]), if_neg (by simp [hval.1]), hun]
    · have hnone := fun acc₂ => ih acc₂ ⟨raw₂, hmem₂, hbad⟩
      unfold parseQueryTokens
      by_cases hskip : (normalizeQueryToken raw).skip
      · rw [if_pos hskip]
        exact hnone acc
      · rw [if_neg hskip]
        by_cases hinv : (normalizeQueryToken raw).invalid
        · rw [if_pos hinv]
        · rw [if_neg hinv]
          cases matcherFromToken (normalizeQueryToken raw).value with
          | none => rfl
          | some m => exact hnone (acc ++ [m])

theorem goFields_token_nonempty {q raw : String} (hmem : raw ∈ goFields q) :
    goTrimSpace q ≠ "" := by
  refine goTrimSpace_ne_empty ?_
  have hne : goFields q ≠ [] := fun h => by rw [h] at hmem; simp at hmem
  unfold goFields at hne
  rcases fieldsAux_ne_nil q.data [] hne with h | h
  · exact h
  · exact absurd rfl h

/-- C3: a free-text query containing (after stripping bracket/quote wrapping)
a token that begins with a dash, or a token that is neither `OR` nor carries a
recognized `list:`/`from:`/`to:`/`subject:` prefix, makes the whole rule
non-evaluable — no matchers are produced, even from the other criteria. -/
theorem C3_bad_query_token (c : FilterCriteria) (raw : String)
    (hmem : raw ∈ goFields c.Query) (hbad : badQueryToken raw) :
    buildMatchers c = ([], false) := by
  have hq : goTrimSpace c.Query ≠ "" := goFields_token_nonempty hmem
  have hparse : parseQueryMatchers c.Query = none := by
    unfold parseQueryMatchers
    rw [parseQueryTokens_none_of_bad (goFields c.Query) [] ⟨raw, hmem, hbad⟩]
  unfold buildMatchers
  rw [if_pos hq, hparse]

/-- Witness for C3 at a query containing a negation token, alongside a
criterion that would otherwise produce a matcher. -/
theorem C3_bad_query_token_witness :
    buildMatchers (FilterCriteria.mk "x@y.com" "" "" "-spam" "") = ([], false) :=
  C3_bad_query_token (FilterCriteria.mk "x@y.com" "" "" "-spam" "") "-spam"
    (by decide) (by decide)

/-! ## C7: deterministic rankings

The two ranking comparators share one shape: count descending with the string
key ascending on ties.  The lemmas below are stated generically in the key and
count projections and instantiated for `SenderStat` and `ListStat`. -/

theorem rankLe_total {α : Type} (key : α → String) (cnt : α → Nat) (le : α → α → Bool)
    (hle : ∀ a b, le a b = true ↔
      cnt b < cnt a ∨ (cnt a = cnt b ∧ goStrLe (key a) (key b) = true)) :
    ∀ a b, le a b = true ∨ le b a = true := by
  intro a b
  rcases Nat.lt_trichotomy (cnt a) (cnt b) with h | h | h
  · exact Or.inr ((hle b a).mpr (Or.inl h))
  · rcases goStrLe_total (key a) (key b) with hk | hk
    · exact Or.inl ((hle a b).mpr (Or.inr ⟨h, hk⟩))
    · exact Or.inr ((hle b a).mpr (Or.inr ⟨h.symm, hk⟩))
  · exact Or.inl ((hle a b).mpr (Or.inl h))

theorem rankLe_trans {α : Type} (key : α → String) (cnt : α → Nat) (le : α → α → Bool)
    (hle : ∀ a b, le a b = true ↔
      cnt b < cnt a ∨ (cnt a = cnt b ∧ goStrLe (key a) (key b) = true)) :
    ∀ a b c, le a b = true → le b c = true → le a c = true := by
  intro a b c hab hbc
  rcases (hle a b).mp hab with h1 | ⟨h1, hk1⟩ <;> rcases (hle b c).mp hbc with h2 | ⟨h2, hk2⟩
  · exact (hle a c).mpr (Or.inl (by omega))
  · exact (hle a c).mpr (Or.inl (by omega))
  · exact (hle a c).mpr (Or.inl (by omega))
  · exact (hle a c).mpr (Or.inr ⟨by omega, goStrLe_trans hk1 hk2⟩)

theorem rankLt_asymm {α : Type} (key : α → String) (cnt : α → Nat) :
    ∀ a b, rankLt key cnt a b → rankLt key cnt b a → a = b := by
  intro a b hab hba
  rcases hab with h1 | ⟨h1, hk1, hne1⟩ <;> rcases hba with h2 | ⟨h2, hk2, hne2⟩
  · omega
  · omega
  · omega
  · exact absurd (goStrLe_antisymm hk1 hk2) hne1

theorem sortLe_eq_of_perm {α : Type} (key : α → String) (cnt : α → Nat)
    (le : α → α → Bool)
    (hle : ∀ a b, le a b = true ↔
      cnt b < cnt a ∨ (cnt a = cnt b ∧ goStrLe (key a) (key b) = true))
    (l₁ l₂ : List α) (hperm : l₁.Perm l₂) (hnd : (l₁.map key).Nodup) :
    sortLe le l₁ = sortLe le l₂ := by
  haveI : IsAntisymm α (rankLt key cnt) := ⟨rankLt_asymm key cnt⟩
  have hnd₂ : (l₂.map key).Nodup := ((hperm.map key).nodup_iff).mp hnd
  have hkey₁ : (sortLe le l₁).Pairwise (fun a b => key a ≠ key b) := by
    exact (List.pairwise_map.mp hnd).perm (sortLe_perm le l₁).symm
      (fun h => Ne.symm h)
  have hkey₂ : (sortLe le l₂).Pairwise (fun a b => key a ≠ key b) := by
    exact (List.pairwise_map.mp hnd₂).perm (sortLe_perm le l₂).symm
      (fun h => Ne.symm h)
  have hs₁ : (sortLe le l₁).Pairwise (rankLt key cnt) := by
    refine ((sortLe_pairwise le (rankLe_total key cnt le hle)
      (rankLe_trans key cnt le hle) l₁).and hkey₁).imp ?_
    rintro a b ⟨hab, hne⟩
    rcases (hle a b).mp hab with h | ⟨h, hk⟩
    · exact Or.inl h
    · exact Or.inr ⟨h, hk, hne⟩
  have hs₂ : (sortLe le l₂).Pairwise (rankLt key cnt) := by
    refine ((sortLe_pairwise le (rankLe_total key cnt le hle)
      (rankLe_trans key cnt le hle) l₂).and hkey₂).imp ?_
    rintro a b ⟨hab, hne⟩
    rcases (hle a b).mp hab with h | ⟨h, hk⟩
    · exact Or.inl h
    · exact Or.inr ⟨h, hk, hne⟩
  exact List.eq_of_perm_of_sorted
    (((sortLe_perm le l₁).trans hperm).trans (sortLe_perm le l₂).symm) hs₁ hs₂

theorem senderLe_iff (a b : SenderStat) :
    senderLe a b = true ↔
      b.Count < a.Count ∨ (a.Count = b.Count ∧ goStrLe a.Domain b.Domain = true) := by
  unfold senderLe
  by_cases h : a.Count = b.Count <;> simp [h]

theorem listLe_iff (a b : ListStat) :
    listLe a b = true ↔
      b.Count < a.Count ∨ (a.Count = b.Count ∧ goStrLe a.ListID b.ListID = true) := by
  unfold listLe
  by_cases h : a.Count = b.Count <;> simp [h]

/-- C7: for any positive `topN`, both rankings are independent of the
iteration order of the accumulator map (any permutation of the value list with
distinct keys ranks identically), are sorted by count descending with the key
ascending on ties, and contain at most `topN` entries. -/
theorem C7_rankings_deterministic (topN : Int) (ht : 0 < topN)
    (m₁ m₂ : List SenderStat) (hnd : (m₁.map (fun s => s.Domain)).Nodup)
    (hp : m₁.Perm m₂)
    (l₁ l₂ : List ListStat) (hnd₂ : (l₁.map (fun s => s.ListID)).Nodup)
    (hp₂ : l₁.Perm l₂) :
    rankSenders m₁ topN = rankSenders m₂ topN ∧
    (rankSenders m₁ topN).Pairwise
      (fun a b => b.Count < a.Count ∨
        (a.Count = b.Count ∧ goStrLe a.Domain b.Domain = true)) ∧
    (rankSenders m₁ topN).length ≤ topN.toNat ∧
    rankLists l₁ topN = rankLists l₂ topN ∧
    (rankLists l₁ topN).Pairwise
      (fun a b => b.Count < a.Count ∨
        (a.Count = b.Count ∧ goStrLe a.ListID b.ListID = true)) ∧
    (rankLists l₁ topN).length ≤ topN.toNat := by
  have hsort : sortLe senderLe m₁ = sortLe senderLe m₂ :=
    sortLe_eq_of_perm (fun s => s.Domain) (fun s => s.Count) senderLe senderLe_iff
      m₁ m₂ hp hnd
  have hsort₂ : sortLe listLe l₁ = sortLe listLe l₂ :=
    sortLe_eq_of_perm (fun s => s.ListID) (fun s => s.Count) listLe listLe_iff
      l₁ l₂ hp₂ hnd₂
  refine ⟨by unfold rankSenders; rw [hsort], ?_, ?_,
    by unfold rankLists; rw [hsort₂], ?_, ?_⟩
  · have hpw := (sortLe_pairwise senderLe
      (rankLe_total (fun s => s.Domain) (fun s => s.Count) senderLe senderLe_iff)
      (rankLe_trans (fun s => s.Domain) (fun s => s.Count) senderLe senderLe_iff)
      m₁).imp (fun h => (senderLe_iff _ _).mp h)
    unfold rankSenders
    by_cases h : topN < ((sortLe senderLe m₁).length : Int)
    · rw [if_pos h]
      exact hpw.sublist (List.take_sublist _ _)
    · rw [if_neg h]
      exact hpw
  · unfold rankSenders
    by_cases h : topN < ((sortLe senderLe m₁).length : Int)
    · rw [if_pos h]
      simp
    · rw [if_neg h]
      omega
  · have hpw := (sortLe_pairwise listLe
      (rankLe_total (fun s => s.ListID) (fun s => s.Count) listLe listLe_iff)
      (rankLe_trans (fun s => s.ListID) (fun s => s.Count) listLe listLe_iff)
      l₁).imp (fun h => (listLe_iff _ _).mp h)
    unfold rankLists
    by_cases h : topN < ((sortLe listLe l₁).length : Int)
    · rw [if_pos h]
      exact hpw.sublist (List.take_sublist _ _)
    · rw [if_neg h]
      exact hpw
  · unfold rankLists
    by_cases h : topN < ((sortLe listLe l₁).length : Int)
    · rw [if_pos h]
      simp
    · rw [if_neg h]
      omega

/-- Witness for C7 at a concrete two-entry table with a count tie. -/
theorem C7_rankings_deterministic_witness :
    rankSenders [SenderStat.mk "b.com" 1 "s1", SenderStat.mk "a.com" 1 "s2"] 5 =
      rankSenders [SenderStat.mk "a.com" 1 "s2", SenderStat.mk "b.com" 1 "s1"] 5 ∧
    (rankSenders [SenderStat.mk "b.com" 1 "s1", SenderStat.mk "a.com" 1 "s2"] 5).Pairwise
      (fun a b => b.Count < a.Count ∨
        (a.Count = b.Count ∧ goStrLe a.Domain b.Domain = true)) ∧
    (rankSenders [SenderStat.mk "b.com" 1 "s1", SenderStat.mk "a.com" 1 "s2"] 5).length ≤
      (5 : Int).toNat ∧
    rankLists [ListStat.mk "x.list" 2 "s3"] 5 = rankLists [ListStat.mk "x.list" 2 "s3"] 5 ∧
    (rankLists [ListStat.mk "x.list" 2 "s3"] 5).Pairwise
      (fun a b => b.Count < a.Count ∨
        (a.Count = b.Count ∧ goStrLe a.ListID b.ListID = true)) ∧
    (rankLists [ListStat.mk "x.list" 2 "s3"] 5).length ≤ (5 : Int).toNat :=
  C7_rankings_deterministic 5 (by decide)
    [SenderStat.mk "b.com" 1 "s1", SenderStat.mk "a.com" 1 "s2"]
    [SenderStat.mk "a.com" 1 "s2", SenderStat.mk "b.com" 1 "s1"]
    (by decide) (List.Perm.swap _ _ _)
    [ListStat.mk "x.list" 2 "s3"] [ListStat.mk "x.list" 2 "s3"]
    (by decide) (List.Perm.refl _)

/-! ## C4: conflict findings

The analysis proceeds through closed forms for the two insertion-order maps
(the replay map and its per-message inversion), which exhibit their lookup
functions as permutation-respecting functions of the message sample. -/

theorem lookupD_insertAppend {κ β : Type} [DecidableEq κ] :
    ∀ (m : List (κ × List β)) (k : κ) (v : β) (k₂ : κ),
      lookupD (insertAppend m k v) k₂ =
        if k₂ = k then lookupD m k ++ [v] else lookupD m k₂ := by
  intro m
  induction m with
  | nil =>
    intro k v k₂
    by_cases h : k₂ = k <;> simp [insertAppend, lookupD, h]
  | cons q rest ih =>
    intro k v k₂
    obtain ⟨kq, vs⟩ := q
    simp only [insertAppend]
    by_cases hk : k = kq
    · subst hk
      by_cases h2 : k₂ = k <;> simp [lookupD, h2]
    · rw [if_neg hk]
      by_cases h2 : k₂ = kq
      · subst h2
        simp [lookupD, Ne.symm hk]
      · simp only [lookupD, if_neg h2]
        rw [if_neg hk]
        exact ih k v k₂

theorem evalRules_inner (rule : CompiledRule) :
    ∀ (metas : List MessageMeta) (m : List (String × List MessageID)) (name : String),
      lookupD (metas.foldl (fun m meta =>
        if ruleMatches rule meta then insertAppend m rule.Name meta.ID else m) m) name =
      lookupD m name ++ (if name = rule.Name then matchedIds rule metas else []) := by
  intro metas
  induction metas with
  | nil => intro m name; simp [matchedIds]
  | cons meta rest ih =>
    intro m name
    rw [List.foldl_cons]
    by_cases hmatch : ruleMatches rule meta
    · rw [if_pos hmatch, ih, lookupD_insertAppend]
      by_cases hname : name = rule.Name
      · rw [if_pos hname, if_pos hname, if_pos hname]
        subst hname
        simp [matchedIds, hmatch, List.filter_cons]
      · rw [if_neg hname, if_neg hname, if_neg hname]
    · rw [if_neg hmatch, ih]
      by_cases hname : name = rule.Name
      · rw [if_pos hname, if_pos hname]
        simp [matchedIds, hmatch, List.filter_cons]
      · rw [if_neg hname, if_neg hname]

theorem evalRules_lookup (metas : List MessageMeta) (name : String) :
    ∀ (rules : List CompiledRule) (m : List (String × List MessageID)),
      lookupD (rules.foldl (fun m rule =>
        if !rule.Evaluable then m
        else metas.foldl (fun m meta =>
          if ruleMatches rule meta then insertAppend m rule.Name meta.ID else m) m) m) name =
      lookupD m name ++ nameMatches metas name rules := by
  intro rules
  induction rules with
  | nil => intro m; simp [nameMatches]
  | cons rule rest ih =>
    intro m
    rw [List.foldl_cons]
    by_cases heval : rule.Evaluable
    · simp only [heval, Bool.not_true, Bool.false_eq_true, if_false]
      rw [ih, evalRules_inner]
      by_cases hname : name = rule.Name
      · rw [if_pos hname]
        simp [nameMatches, heval, hname, List.append_assoc]
      · rw [if_neg hname]
        have : ¬(rule.Evaluable = true ∧ name = rule.Name) := fun h => hname h.2
        simp [nameMatches, this]
    · simp only [heval]
      rw [ih]
      have : ¬(rule.Evaluable = true ∧ name = rule.Name) := fun h => heval h.1
      simp [nameMatches, this]

theorem evaluateRules_lookup (rules : List CompiledRule) (metas : List MessageMeta)
    (name : String) :
    lookupD (evaluateRules rules metas) name = nameMatches metas name rules := by
  unfold evaluateRules
  rw [evalRules_lookup]
  rfl

theorem matchedIds_perm (r : CompiledRule) {metas₁ metas₂ : List MessageMeta}
    (hp : metas₁.Perm metas₂) : (matchedIds r metas₁).Perm (matchedIds r metas₂) :=
  (hp.filter _).map _

theorem nameMatches_perm {metas₁ metas₂ : List MessageMeta} (hp : metas₁.Perm metas₂)
    (name : String) : ∀ (rules : List CompiledRule),
      (nameMatches metas₁ name rules).Perm (nameMatches metas₂ name rules) := by
  intro rules
  induction rules with
  | nil => simp [nameMatches]
  | cons r rest ih =>
    unfold nameMatches
    simp only [List.map_cons, List.join]
    refine List.Perm.append ?_ ih
    by_cases h : r.Evaluable = true ∧ name = r.Name
    · simpa [h] using matchedIds_perm r hp
    · simp [h]

theorem collect_inner (s : RuleSummary) :
    ∀ (ids : List MessageID) (m : List (MessageID × List RuleSummary)) (id : MessageID),
      lookupD (ids.foldl (fun m i => insertAppend m i s) m) id =
        lookupD m id ++ List.replicate (ids.count id) s := by
  intro ids
  induction ids with
  | nil => intro m id; simp
  | cons i rest ih =>
    intro m id
    rw [List.foldl_cons, ih, lookupD_insertAppend]
    by_cases h : id = i
    · subst h
      rw [if_pos rfl]
      simp [List.count_cons, List.replicate_succ, List.append_assoc]
    · rw [if_neg h]
      have : rest.count id = (i :: rest).count id := by
        simp [List.count_cons, h]
      rw [this]

theorem collect_outer (replay : List (String × List MessageID)) :
    ∀ (rules : List CompiledRule) (m : List (MessageID × List RuleSummary)) (id : MessageID),
      lookupD (rules.foldl (fun byMessage rule =>
        if (lookupD replay rule.Name).isEmpty then byMessage
        else (lookupD replay rule.Name).foldl (fun byMessage i =>
          insertAppend byMessage i (RuleSummary.mk rule.Name rule.Actions)) byMessage) m) id =
      lookupD m id ++ byMessageSpec replay rules id := by
  intro rules
  induction rules with
  | nil => intro m id; simp [byMessageSpec]
  | cons rule rest ih =>
    intro m id
    rw [List.foldl_cons]
    by_cases hids : (lookupD replay rule.Name).isEmpty
    · rw [if_pos hids, ih]
      have hnil : lookupD replay rule.Name = [] := by simpa using hids
      simp [byMessageSpec, hnil]
    · rw [if_neg hids, ih, collect_inner]
      simp [byMessageSpec, List.append_assoc]

theorem collectRuleSummaries_lookup (rules : List CompiledRule)
    (replay : List (String × List MessageID)) (id : MessageID) :
    lookupD (collectRuleSummaries rules replay) id = byMessageSpec replay rules id := by
  unfold collectRuleSummaries
  rw [collect_outer]
  rfl

/-! ### Well-formedness of insertion-order maps -/

theorem insertAppend_keys {κ β : Type} [DecidableEq κ] :
    ∀ (m : List (κ × List β)) (k : κ) (v : β),
      (insertAppend m k v).map Prod.fst =
        if k ∈ m.map Prod.fst then m.map Prod.fst else m.map Prod.fst ++ [k] := by
  intro m
  induction m with
  | nil => intro k v; simp [insertAppend]
  | cons q rest ih =>
    intro k v
    obtain ⟨kq, vs⟩ := q
    simp only [insertAppend]
    by_cases h : k = kq
    · subst h
      simp
    · rw [if_neg h]
      simp only [List.map_cons, List.mem_cons]
      rw [ih]
      by_cases hmem : k ∈ rest.map Prod.fst
      · simp [hmem, h]
      · simp [hmem, h]

theorem insertAppend_WF {κ β : Type} [DecidableEq κ] (m : List (κ × List β))
    (k : κ) (v : β) (h : WFmap m) : WFmap (insertAppend m k v) := by
  obtain ⟨hkeys, hvals⟩ := h
  constructor
  · rw [insertAppend_keys]
    by_cases hmem : k ∈ m.map Prod.fst
    · simpa [hmem] using hkeys
    · rw [if_neg hmem]
      refine List.Nodup.append hkeys (List.nodup_singleton k) ?_
      exact fun a ha hb => hmem ((List.mem_singleton.mp hb) ▸ ha)
  · intro p hp
    exact (insertAppend_forall (fun _ => True) k v trivial m
      (fun q hq => ⟨hvals q hq, trivial⟩) p hp).1

theorem lookupD_eq_of_mem {κ β : Type} [DecidableEq κ] :
    ∀ (m : List (κ × List β)), (m.map Prod.fst).Nodup →
      ∀ p ∈ m, lookupD m p.1 = p.2 := by
  intro m
  induction m with
  | nil => intro _ p hp; simp at hp
  | cons q rest ih =>
    intro hnd p hp
    obtain ⟨kq, vs⟩ := q
    rcases List.mem_cons.mp hp with rfl | hp
    · simp [lookupD]
    · have hne : p.1 ≠ kq := by
        intro he
        have : kq ∈ rest.map Prod.fst := he ▸ List.mem_map_of_mem Prod.fst hp
        simp only [List.map_cons, List.nodup_cons] at hnd
        exact hnd.1 this
      simp only [lookupD, if_neg hne]
      exact ih (by simpa using (List.nodup_cons.mp (by simpa using hnd)).2) p hp

theorem mem_of_lookupD {κ β : Type} [DecidableEq κ] :
    ∀ (m : List (κ × List β)) (k : κ) (vs : List β),
      lookupD m k = vs → vs ≠ [] → (k, vs) ∈ m := by
  intro m
  induction m with
  | nil => intro k vs h hne; simp [lookupD] at h; exact absurd h hne
  | cons q rest ih =>
    intro k vs h hne
    obtain ⟨kq, ws⟩ := q
    by_cases hk : k = kq
    · subst hk
      simp only [lookupD, if_pos rfl] at h
      subst h
      exact List.mem_cons_self _ _
    · simp only [lookupD, if_neg hk] at h
      exact List.mem_cons_of_mem _ (ih k vs h hne)

theorem WF_mem_iff {κ β : Type} [DecidableEq κ] {m : List (κ × List β)}
    (h : WFmap m) (p : κ × List β) :
    p ∈ m ↔ p.2 ≠ [] ∧ lookupD m p.1 = p.2 := by
  constructor
  · intro hp
    exact ⟨h.2 p hp, lookupD_eq_of_mem m h.1 p hp⟩
  · rintro ⟨hne, hl⟩
    have := mem_of_lookupD m p.1 p.2 hl hne
    simpa using this

theorem assoc_perm_of_lookup_eq {κ β : Type} [DecidableEq κ]
    {m₁ m₂ : List (κ × List β)} (h₁ : WFmap m₁) (h₂ : WFmap m₂)
    (hl : ∀ k, lookupD m₁ k = lookupD m₂ k) : m₁.Perm m₂ := by
  rw [List.perm_ext_iff_of_nodup (h₁.1.of_map) (h₂.1.of_map)]
  intro p
  rw [WF_mem_iff h₁, WF_mem_iff h₂, hl]

theorem evaluateRules_WF (rules : List CompiledRule) (metas : List MessageMeta) :
    WFmap (evaluateRules rules metas) := by
  unfold evaluateRules
  refine foldl_preserve WFmap _ rules [] ⟨List.nodup_nil, by simp⟩ ?_
  intro acc rule _ hacc
  by_cases heval : rule.Evaluable
  · simp only [heval, Bool.not_true, Bool.false_eq_true, if_false]
    refine foldl_preserve WFmap _ metas acc hacc ?_
    intro acc₂ meta _ hacc₂
    by_cases hmatch : ruleMatches rule meta
    · simpa [hmatch] using insertAppend_WF acc₂ rule.Name meta.ID hacc₂
    · simpa [hmatch] using hacc₂
  · simpa [heval] using hacc

theorem collectRuleSummaries_WF (rules : List CompiledRule)
    (replay : List (String × List MessageID)) :
    WFmap (collectRuleSummaries rules replay) := by
  unfold collectRuleSummaries
  refine foldl_preserve WFmap _ rules [] ⟨List.nodup_nil, by simp⟩ ?_
  intro acc rule _ hacc
  by_cases hids : (lookupD replay rule.Name).isEmpty
  · simpa [hids] using hacc
  · simp only [hids, Bool.false_eq_true, if_false]
    refine foldl_preserve WFmap _ (lookupD replay rule.Name) acc hacc ?_
    intro acc₂ i _ hacc₂
    exact insertAppend_WF acc₂ i (RuleSummary.mk rule.Name rule.Actions) hacc₂

theorem byMessageSpec_perm_eq (rules : List CompiledRule)
    {metas₁ metas₂ : List MessageMeta} (hp : metas₁.Perm metas₂) (id : MessageID) :
    byMessageSpec (evaluateRules rules metas₁) rules id =
      byMessageSpec (evaluateRules rules metas₂) rules id := by
  unfold byMessageSpec
  have hf : (fun (r : CompiledRule) =>
      List.replicate ((lookupD (evaluateRules rules metas₁) r.Name).count id)
        (RuleSummary.mk r.Name r.Actions)) =
      (fun (r : CompiledRule) =>
      List.replicate ((lookupD (evaluateRules rules metas₂) r.Name).count id)
        (RuleSummary.mk r.Name r.Actions)) := by
    funext r
    rw [evaluateRules_lookup, evaluateRules_lookup,
      (nameMatches_perm hp r.Name rules).count_eq]
  rw [hf]

theorem byMessage_perm (rules : List CompiledRule)
    {metas₁ metas₂ : List MessageMeta} (hp : metas₁.Perm metas₂) :
    (collectRuleSummaries rules (evaluateRules rules metas₁)).Perm
      (collectRuleSummaries rules (evaluateRules rules metas₂)) := by
  refine assoc_perm_of_lookup_eq (collectRuleSummaries_WF _ _)
    (collectRuleSummaries_WF _ _) ?_
  intro id
  rw [collectRuleSummaries_lookup, collectRuleSummaries_lookup,
    byMessageSpec_perm_eq rules hp id]

/-! ### The seen-set deduplication of the conflict loop -/

theorem dedupFrom_mem : ∀ (l seen : List String) (a : String),
    a ∈ dedupFrom seen l ↔ a ∈ l ∧ a ∉ seen := by
  intro l
  induction l with
  | nil => intro seen a; simp [dedupFrom]
  | cons k ks ih =>
    intro seen a
    unfold dedupFrom
    by_cases hk : k ∈ seen
    · rw [if_pos (by simpa [List.elem_eq_mem] using hk), ih]
      constructor
      · rintro ⟨ha, hs⟩
        exact ⟨List.mem_cons_of_mem _ ha, hs⟩
      · rintro ⟨ha, hs⟩
        rcases List.mem_cons.mp ha with rfl | ha
        · exact absurd hk hs
        · exact ⟨ha, hs⟩
    · rw [if_neg (by simpa [List.elem_eq_mem] using hk)]
      constructor
      · intro hmem
        rcases List.mem_cons.mp hmem with rfl | hmem
        · exact ⟨List.mem_cons_self _ _, hk⟩
        · obtain ⟨ha, hs⟩ := (ih (k :: seen) a).mp hmem
          exact ⟨List.mem_cons_of_mem _ ha,
            fun hm => hs (List.mem_cons_of_mem _ hm)⟩
      · rintro ⟨ha, hs⟩
        by_cases hak : a = k
        · subst hak
          exact List.mem_cons_self _ _
        · rcases List.mem_cons.mp ha with rfl | ha
          · exact absurd rfl hak
          · refine List.mem_cons_of_mem _ ((ih (k :: seen) a).mpr ⟨ha, ?_⟩)
            intro hm
            rcases List.mem_cons.mp hm with h | h
            · exact hak h
            · exact hs h

theorem dedupFrom_nodup : ∀ (l seen : List String), (dedupFrom seen l).Nodup := by
  intro l
  induction l with
  | nil => intro seen; simp [dedupFrom]
  | cons k ks ih =>
    intro seen
    unfold dedupFrom
    by_cases hk : k ∈ seen
    · rw [if_pos (by simpa [List.elem_eq_mem] using hk)]
      exact ih seen
    · rw [if_neg (by simpa [List.elem_eq_mem] using hk)]
      refine List.nodup_cons.mpr ⟨?_, ih (k :: seen)⟩
      intro hmem
      exact ((dedupFrom_mem ks (k :: seen) k).mp hmem).2 (List.mem_cons_self _ _)

theorem dedupFrom_perm {l₁ l₂ : List String} (hp : l₁.Perm l₂) (seen : List String) :
    (dedupFrom seen l₁).Perm (dedupFrom seen l₂) := by
  rw [List.perm_ext_iff_of_nodup (dedupFrom_nodup l₁ seen) (dedupFrom_nodup l₂ seen)]
  intro a
  rw [dedupFrom_mem, dedupFrom_mem, hp.mem_iff]

/-! ### The conflict fold -/

theorem conflictStep_of_none (acc : List String × List Conflict)
    (e : MessageID × List RuleSummary) (h : entryKey e.2 = none) :
    conflictStep acc e = acc := by
  unfold entryKey at h
  unfold conflictStep
  by_cases hc : (classifySummaries e.2).1.isEmpty || (classifySummaries e.2).2.isEmpty
  · rw [if_pos hc]
  · rw [if_neg hc] at h
    exact absurd h (by simp)

theorem conflictStep_of_some (acc : List String × List Conflict)
    (e : MessageID × List RuleSummary) (k : String) (h : entryKey e.2 = some k) :
    conflictStep acc e =
      (if acc.1.contains k then acc
       else (k :: acc.1, acc.2 ++
         [Conflict.mk (mergeRuleSets (classifySummaries e.2).1 (classifySummaries e.2).2)
           "archive and star rules overlap"])) := by
  unfold entryKey at h
  unfold conflictStep
  by_cases hc : (classifySummaries e.2).1.isEmpty || (classifySummaries e.2).2.isEmpty
  · rw [if_pos hc] at h
    exact absurd h (by simp)
  · rw [if_neg hc] at h
    rw [if_neg hc]
    have hk : goJoin (mergeRuleSets (classifySummaries e.2).1 (classifySummaries e.2).2) "|"
        = k := by injection h
    show (if acc.1.contains (goJoin (mergeRuleSets (classifySummaries e.2).1
        (classifySummaries e.2).2) "|") then acc
      else (goJoin (mergeRuleSets (classifySummaries e.2).1
          (classifySummaries e.2).2) "|" :: acc.1, acc.2 ++
        [Conflict.mk (mergeRuleSets (classifySummaries e.2).1 (classifySummaries e.2).2)
          "archive and star rules overlap"])) = _
    rw [hk]

theorem conflictFold_keys :
    ∀ (entries : List (MessageID × List RuleSummary)) (seen : List String)
      (conflicts : List Conflict),
      ((entries.foldl conflictStep (seen, conflicts)).2).map conflictKey =
        conflicts.map conflictKey ++
          dedupFrom seen (entries.filterMap (fun e => entryKey e.2)) := by
  intro entries
  induction entries with
  | nil => intro seen conflicts; simp [dedupFrom]
  | cons e rest ih =>
    intro seen conflicts
    rw [List.foldl_cons]
    cases hek : entryKey e.2 with
    | none =>
      rw [conflictStep_of_none (seen, conflicts) e hek, ih _ _]
      simp [List.filterMap_cons, hek]
    | some k =>
      rw [conflictStep_of_some (seen, conflicts) e k hek]
      have hrhs : dedupFrom seen ((e :: rest).filterMap (fun e => entryKey e.2)) =
          if seen.contains k then dedupFrom seen (rest.filterMap (fun e => entryKey e.2))
          else k :: dedupFrom (k :: seen) (rest.filterMap (fun e => entryKey e.2)) := by
        simp only [List.filterMap_cons, hek]
        rfl
      rw [hrhs]
      by_cases hseen : k ∈ seen
      · rw [if_pos (by simpa [List.elem_eq_mem] using hseen),
          if_pos (by simpa [List.elem_eq_mem] using hseen)]
        exact ih _ _
      · rw [if_neg (by simpa [List.elem_eq_mem] using hseen),
          if_neg (by simpa [List.elem_eq_mem] using hseen),
          ih _ _]
        have hck : conflictKey
            (Conflict.mk (mergeRuleSets (classifySummaries e.2).1
              (classifySummaries e.2).2) "archive and star rules overlap") = k := by
          unfold entryKey at hek
          by_cases hc : (classifySummaries e.2).1.isEmpty ||
              (classifySummaries e.2).2.isEmpty
          · rw [if_pos hc] at hek
            exact absurd hek (by simp)
          · rw [if_neg hc] at hek
            unfold conflictKey
            injection hek
        simp [hck, List.append_assoc]

theorem detectConflicts_keys_perm (rules : List CompiledRule)
    (replay : List (String × List MessageID)) :
    ((detectConflicts rules replay).map conflictKey).Perm
      (dedupFrom []
        ((collectRuleSummaries rules replay).filterMap (fun e => entryKey e.2))) := by
  unfold detectConflicts
  have h1 := conflictFold_keys (collectRuleSummaries rules replay) [] []
  simp only [List.map_nil, List.nil_append] at h1
  exact h1 ▸ (sortLe_perm _ _).map conflictKey

theorem detectConflicts_sorted (rules : List CompiledRule)
    (replay : List (String × List MessageID)) :
    ((detectConflicts rules replay).map conflictKey).Pairwise
      (fun a b => goStrLe a b = true) := by
  unfold detectConflicts
  refine List.pairwise_map.mpr ?_
  exact sortLe_pairwise (fun a b => goStrLe (conflictKey a) (conflictKey b))
    (fun a b => goStrLe_total (conflictKey a) (conflictKey b))
    (fun a b c hab hbc => goStrLe_trans hab hbc)
    ((collectRuleSummaries rules replay).foldl conflictStep ([], [])).2

set_option maxRecDepth 10000 in
/-- C4 counterexample: permuting the two-message sample changes the returned
conflict findings (the surviving `Rules` list differs: `["a", "b"]` against
`["a|b"]`, two distinct rule-name sets whose joined keys collide), so the set
of conflict findings is not permutation-invariant. -/
theorem C4_counterexample :
    ([metaC4a, metaC4b].Perm [metaC4b, metaC4a]) ∧
    detectConflicts rulesC4 (evaluateRules rulesC4 [metaC4a, metaC4b]) ≠
      detectConflicts rulesC4 (evaluateRules rulesC4 [metaC4b, metaC4a]) := by
  refine ⟨List.Perm.swap _ _ _, ?_⟩
  intro h
  have h1 : detectConflicts rulesC4 (evaluateRules rulesC4 [metaC4a, metaC4b]) =
      [Conflict.mk ["a", "b"] "archive and star rules overlap"] := rfl
  have h2 : detectConflicts rulesC4 (evaluateRules rulesC4 [metaC4b, metaC4a]) =
      [Conflict.mk ["a|b"] "archive and star rules overlap"] := rfl
  rw [h1, h2] at h
  exact absurd h (by decide)

/-- C4 amended: permuting the message sample preserves the sorted list of
joined conflict keys (though not necessarily the reported `Rules` lists when
distinct rule-name sets share a joined key); the returned keys are free of
duplicates — two messages matched by the identical rule-name set contribute
one finding — and sorted ascending; and every message entry whose matched
rules mix an archive action with a star action contributes its key. -/
theorem C4_amended_conflict_keys (rules : List CompiledRule)
    (metas₁ metas₂ : List MessageMeta) (hp : metas₁.Perm metas₂) :
    (detectConflicts rules (evaluateRules rules metas₁)).map conflictKey =
      (detectConflicts rules (evaluateRules rules metas₂)).map conflictKey ∧
    ((detectConflicts rules (evaluateRules rules metas₁)).map conflictKey).Nodup ∧
    ((detectConflicts rules (evaluateRules rules metas₁)).map conflictKey).Pairwise
      (fun a b => goStrLe a b = true) ∧
    ∀ e ∈ collectRuleSummaries rules (evaluateRules rules metas₁), ∀ k,
      entryKey e.2 = some k →
        k ∈ (detectConflicts rules (evaluateRules rules metas₁)).map conflictKey := by
  have hkl : ((collectRuleSummaries rules (evaluateRules rules metas₁)).filterMap
      (fun e => entryKey e.2)).Perm
      ((collectRuleSummaries rules (evaluateRules rules metas₂)).filterMap
        (fun e => entryKey e.2)) :=
    (byMessage_perm rules hp).filterMap _
  have hkeys₁ := detectConflicts_keys_perm rules (evaluateRules rules metas₁)
  have hkeys₂ := detectConflicts_keys_perm rules (evaluateRules rules metas₂)
  refine ⟨?_, ?_, detectConflicts_sorted _ _, ?_⟩
  · haveI : IsAntisymm String (fun a b => goStrLe a b = true) :=
      ⟨fun a b h1 h2 => goStrLe_antisymm h1 h2⟩
    exact List.eq_of_perm_of_sorted
      (hkeys₁.trans ((dedupFrom_perm hkl []).trans hkeys₂.symm))
      (detectConflicts_sorted _ _) (detectConflicts_sorted _ _)
  · exact hkeys₁.nodup_iff.mpr (dedupFrom_nodup _ _)
  · intro e he k hk
    refine hkeys₁.mem_iff.mpr ((dedupFrom_mem _ _ _).mpr ⟨?_, by simp⟩)
    exact List.mem_filterMap.mpr ⟨e, he, hk⟩

/-- Witness for C4 at the counterexample sample (whose sorted key list is
nevertheless permutation-invariant). -/
theorem C4_amended_conflict_keys_witness :
    (detectConflicts rulesC4 (evaluateRules rulesC4 [metaC4a, metaC4b])).map conflictKey =
      (detectConflicts rulesC4 (evaluateRules rulesC4 [metaC4b, metaC4a])).map
        conflictKey ∧
    ((detectConflicts rulesC4 (evaluateRules rulesC4 [metaC4a, metaC4b])).map
      conflictKey).Nodup ∧
    ((detectConflicts rulesC4 (evaluateRules rulesC4 [metaC4a, metaC4b])).map
      conflictKey).Pairwise (fun a b => goStrLe a b = true) ∧
    ∀ e ∈ collectRuleSummaries rulesC4 (evaluateRules rulesC4 [metaC4a, metaC4b]), ∀ k,
      entryKey e.2 = some k →
        k ∈ (detectConflicts rulesC4 (evaluateRules rulesC4 [metaC4a, metaC4b])).map
          conflictKey :=
  C4_amended_conflict_keys rulesC4 [metaC4a, metaC4b] [metaC4b, metaC4a]
    (List.Perm.swap _ _ _)

end Chronosweep
